import Mathlib

/-!
The Wuvi interpreter (`wuvi.cpp`): shallow embedding and verified properties

The C++ class `WuviInterpreter` is embedded as pure functions over an explicit
state.  A `std::string` is the list of its `char`s, a `std::map` is a partial
function, the text streams (`istringstream`, `cin`, `cout`) are the lists of the
characters still to be read, respectively already written.  A C++ exception
that nothing catches ends the run; it is the `fatal` outcome.  Loops carry a
fuel argument; running out of fuel is `none`, and the theorems show that the
fuel handed out by the entry points always suffices.
-/

namespace Wuvi

/-- A `std::string`, as the sequence of its characters. -/
abbrev Str := List Char

/-- The enumeration `DataType` of the source. -/
inductive DataType where
  | STRING
  | INTEGER
  | FLOAT
  | BOOL
  | NULLTYPE
  | CHAR
  | DOUBLE
  deriving DecidableEq, Repr

/-- The exceptions the program can raise: `std::invalid_argument` and
`std::out_of_range` (from `stoi`, `stof`, `stod`) and
`std::bad_variant_access` (from `std::get`). -/
inductive Exn where
  | invalid_argument
  | out_of_range
  | bad_variant_access
  deriving DecidableEq, Repr

/-- Floating point is kept abstract: the types of `float` and `double` values,
the library parsers `std::stof` and `std::stod`, and the default stream
rendering of both types are parameters of the embedding. -/
structure FloatLib where
  F : Type
  D : Type
  stof : Str → Except Exn F
  stod : Str → Except Exn D
  showF : F → Str
  showD : D → Str

/-- The payload `variant<string, int, float, bool, char, double>`. -/
inductive Value (L : FloatLib) where
  | str (s : Str)
  | int (i : Int)
  | flt (f : L.F)
  | bool (b : Bool)
  | chr (c : Char)
  | dbl (d : L.D)

/-- The struct `Variable`: a tag and a payload. -/
structure Variable (L : FloatLib) where
  type : DataType
  value : Value L

/-- The members `variables` (here `vars`, as `variables` is reserved) and
`functions` of the interpreter, together with the
two standard streams: `cin` is the text still to be read, `cout` the text
written so far. -/
structure State (L : FloatLib) where
  vars : Str → Option (Variable L)
  functions : Str → Option (List Str)
  cin : Str
  cout : Str

/-- How a run ends: normally in a state, or by an uncaught exception raised in
a state. -/
inductive Outcome (L : FloatLib) where
  | done (s : State L)
  | fatal (e : Exn) (s : State L)

/-- What one pass through the body of the loop of `execute` leaves behind: the
stream and state for the next pass, or an uncaught exception. -/
inductive LineResult (L : FloatLib) where
  | next (stream : Str) (s : State L)
  | fatal (e : Exn) (s : State L)

/-- The assignment `m[key] = v` on a `std::map`. -/
def mapSet {α : Type} (m : Str → Option α) (key : Str) (v : α) : Str → Option α :=
  fun k => if k = key then some v else m k

/-- The predicate `isspace` of the "C" locale: space, and `\t \n \v \f \r`. -/
def isspace (c : Char) : Bool :=
  c.toNat = 32 || (9 ≤ c.toNat && c.toNat ≤ 13)

/-- The predicate `isdigit`. -/
def isdigit (c : Char) : Bool :=
  48 ≤ c.toNat && c.toNat ≤ 57

/-- The line feed character. -/
def newline : Char := Char.ofNat 10

/-- The value of a run of decimal digits, most significant first. -/
def digitsVal (ds : Str) : Nat :=
  ds.foldl (fun acc c => acc * 10 + (c.toNat - 48)) 0

/-- The library function `std::stoi(s)` (base 10): leading white space is
skipped, an optional sign is read, then the longest run of digits; whatever
follows the digits is ignored.  No digit raises `invalid_argument`, a value
that does not fit `int` raises `out_of_range`. -/
def stoi (s : Str) : Except Exn Int :=
  let s1 := s.dropWhile isspace
  let neg : Bool := s1.head? = some '-'
  let s2 := if s1.head? = some '-' ∨ s1.head? = some '+' then s1.tail else s1
  let ds := s2.takeWhile isdigit
  if ds = [] then .error .invalid_argument
  else
    let v : Int := if neg then -(digitsVal ds : Int) else (digitsVal ds : Int)
    if v < -2147483648 ∨ 2147483647 < v then .error .out_of_range else .ok v

/-- The rendering `cout << i` of an `int` under the default format flags:
decimal digits, preceded by `-` for a negative value. -/
def showInt (i : Int) : Str :=
  if i < 0 then '-' :: Nat.toDigits 10 i.natAbs else Nat.toDigits 10 i.natAbs

/-- The stream operation `getline(stream, line)`: at the end of the stream it
fails; otherwise it yields the characters up to the next line feed (or to the
end of the stream) and leaves the stream after that line feed. -/
def getline (stream : Str) : Option (Str × Str) :=
  if stream = [] then none
  else some (stream.takeWhile (fun c => c != newline),
             (stream.dropWhile (fun c => c != newline)).tail)

/-- The stream operation `iss >> token`: white space is skipped; at the end of
the stream it fails; otherwise it yields the characters up to the next white
space. -/
def extractToken (iss : Str) : Option (Str × Str) :=
  let s := iss.dropWhile isspace
  if s = [] then none
  else some (s.takeWhile (fun c => !isspace c), s.dropWhile (fun c => !isspace c))

/-- The loop `while (iss >> token) tokens.push_back(token)`. -/
def tokenizeLoop : Nat → Str → List Str → Option (List Str)
  | 0, _, _ => none
  | fuel + 1, iss, tokens =>
    match extractToken iss with
    | none => some tokens
    | some (token, rest) => tokenizeLoop fuel rest (tokens ++ [token])

/-- The method `tokenize`. -/
def tokenize (line : Str) : Option (List Str) :=
  tokenizeLoop (line.length + 1) line []

/-- The token `init` that opens a function definition. -/
def kwInit : Str := ['i', 'n', 'i', 't']

/-- The token `=`. -/
def kwAssign : Str := ['=']

/-- The text `end` that closes a function body. -/
def kwEnd : Str := ['e', 'n', 'd']

/-- The marker `>>+>` of the type String. -/
def mkString : Str := ['>', '>', '+', '>']

/-- The marker `<<-` of the type Integer. -/
def mkInteger : Str := ['<', '<', '-']

/-- The marker `>>+>>` of the type Float. -/
def mkFloat : Str := ['>', '>', '+', '>', '>']

/-- The marker `<<>>`: the type Bool, and the literal true. -/
def mkTrue : Str := ['<', '<', '>', '>']

/-- The marker `>>`: the type Bool, and the literal false. -/
def mkFalse : Str := ['>', '>']

/-- The marker `_-_` of the type Null. -/
def mkNull : Str := ['_', '-', '_']

/-- The marker `_+_` of the type Char. -/
def mkChar : Str := ['_', '+', '_']

/-- The marker `>><<++--__` of the type Double. -/
def mkDouble : Str := ['>', '>', '<', '<', '+', '+', '-', '-', '_', '_']

/-- The line every arithmetic opcode prints. -/
def mathNotice : Str :=
  ("Math operations need implementation (they won\x27t be implemented, " ++
   "they are just added in here for coziness)").toList

/-- The method `parseDataType`. -/
def parseDataType (token : Str) : DataType :=
  if token = mkString then .STRING
  else if token = mkInteger then .INTEGER
  else if token = mkFloat then .FLOAT
  else if token = mkTrue then .BOOL
  else if token = mkFalse then .BOOL
  else if token = mkNull then .NULLTYPE
  else if token = mkChar then .CHAR
  else if token = mkDouble then .DOUBLE
  else .NULLTYPE

/-- The method `parseBuiltin`: `stoi`, with every exception turned into `-1`. -/
def parseBuiltin (token : Str) : Int :=
  match stoi token with
  | .ok v => v
  | .error _ => -1

/-- The statement `cout << text << endl`. -/
def putLine {L : FloatLib} (st : State L) (text : Str) : State L :=
  { st with cout := st.cout ++ text ++ [newline] }

/-- The method `printVariable`; `std::get` of an alternative the variant does
not hold raises `bad_variant_access`. -/
def printVariable {L : FloatLib} (var : Variable L) (st : State L) : Outcome L :=
  match var.type with
  | .STRING =>
    match var.value with
    | .str s => .done (putLine st s)
    | _ => .fatal .bad_variant_access st
  | .INTEGER =>
    match var.value with
    | .int i => .done (putLine st (showInt i))
    | _ => .fatal .bad_variant_access st
  | .FLOAT =>
    match var.value with
    | .flt f => .done (putLine st (L.showF f))
    | _ => .fatal .bad_variant_access st
  | .DOUBLE =>
    match var.value with
    | .dbl d => .done (putLine st (L.showD d))
    | _ => .fatal .bad_variant_access st
  | .BOOL =>
    match var.value with
    | .bool b => .done (putLine st (if b then mkTrue else mkFalse))
    | _ => .fatal .bad_variant_access st
  | .CHAR =>
    match var.value with
    | .chr c => .done (putLine st [c])
    | _ => .fatal .bad_variant_access st
  | .NULLTYPE => .done (putLine st mkNull)

/-- The method `executeBuiltin`.  For opcode 67, a `getline` that fails at the
end of `cin` leaves the local string `input` empty. -/
def executeBuiltin {L : FloatLib} (builtin : Int) (arg : Str) (st : State L) : Outcome L :=
  if builtin = 58 then
    match st.vars arg with
    | some var => printVariable var st
    | none => .done (putLine st arg)
  else if builtin = 67 then
    let r : Str × Str := (getline st.cin).getD ([], [])
    .done { st with cin := r.2,
                    vars := mapSet st.vars arg ⟨.STRING, .str r.1⟩ }
  else if builtin = 24 ∨ builtin = 32 ∨ builtin = 15 ∨ builtin = 45 ∨ builtin = 40
      ∨ builtin = 0 then
    .done (putLine st mathNotice)
  else .done st

/-- The method `assignValue`; on an empty string, `valueStr[0]` is the
terminating null character. -/
def assignValue {L : FloatLib} (var : Variable L) (valueStr : Str) : Except Exn (Variable L) :=
  match var.type with
  | .STRING => .ok { var with value := .str valueStr }
  | .INTEGER =>
    match stoi valueStr with
    | .ok i => .ok { var with value := .int i }
    | .error e => .error e
  | .FLOAT =>
    match L.stof valueStr with
    | .ok f => .ok { var with value := .flt f }
    | .error e => .error e
  | .DOUBLE =>
    match L.stod valueStr with
    | .ok d => .ok { var with value := .dbl d }
    | .error e => .error e
  | .BOOL => .ok { var with value := .bool (decide (valueStr = mkTrue)) }
  | .CHAR => .ok { var with value := .chr (valueStr.headD (Char.ofNat 0)) }
  | .NULLTYPE => .ok var

/-- The test `line.find("end") != string::npos`, for any needle. -/
def containsSub (needle : Str) : Str → Bool
  | [] => needle.isPrefixOf []
  | c :: cs => needle.isPrefixOf (c :: cs) || containsSub needle cs

/-- The loop of `parseFunctionDefinition`: lines are appended to the body
until the stream ends or a line contains `end`; that line is dropped. -/
def captureLoop : Nat → Str → List Str → Option (List Str × Str)
  | 0, _, _ => none
  | fuel + 1, stream, funcBody =>
    match getline stream with
    | none => some (funcBody, stream)
    | some (line, rest) =>
      if containsSub kwEnd line then some (funcBody, rest)
      else captureLoop fuel rest (funcBody ++ [line])

/-- The method `parseFunctionDefinition`; it returns the stream it has read
from and the new state. -/
def parseFunctionDefinition {L : FloatLib} (stream : Str) (tokens : List Str) (st : State L) :
    Option (Str × State L) :=
  if tokens.length < 5 then some (stream, st)
  else
    match captureLoop (stream.length + 1) stream [] with
    | none => none
    | some (funcBody, rest) =>
      some (rest, { st with functions := mapSet st.functions (tokens.getD 1 []) funcBody })

/-- The body of the loop of `execute`, for the line `line` just read and the
stream `stream` after it.  A freshly declared `Variable` holds the first
alternative of its variant, the empty string. -/
def executeLine {L : FloatLib} (line : Str) (stream : Str) (st : State L) :
    Option (LineResult L) :=
  if line = [] then some (.next stream st)
  else
    match tokenize line with
    | none => none
    | some tokens =>
      if tokens = [] then some (.next stream st)
      else if tokens.getD 0 [] = kwInit then
        match parseFunctionDefinition stream tokens st with
        | none => none
        | some (rest, st1) => some (.next rest st1)
      else if 3 ≤ tokens.length ∧ tokens.getD 1 [] = kwAssign then
        let var : Variable L := ⟨parseDataType (tokens.getD 2 []), .str []⟩
        if 3 < tokens.length then
          match assignValue var (tokens.getD 3 []) with
          | .ok var1 =>
            some (.next stream { st with vars := mapSet st.vars (tokens.getD 0 []) var1 })
          | .error e => some (.fatal e st)
        else
          some (.next stream { st with vars := mapSet st.vars (tokens.getD 0 []) var })
      else if 2 ≤ tokens.length then
        if parseBuiltin (tokens.getD 0 []) ≠ -1 then
          match executeBuiltin (parseBuiltin (tokens.getD 0 [])) (tokens.getD 1 []) st with
          | .done st1 => some (.next stream st1)
          | .fatal e st1 => some (.fatal e st1)
        else some (.next stream st)
      else some (.next stream st)

/-- The loop `while (getline(stream, line))` of `execute`. -/
def executeLoop {L : FloatLib} : Nat → Str → State L → Option (Outcome L)
  | 0, _, _ => none
  | fuel + 1, stream, st =>
    match getline stream with
    | none => some (.done st)
    | some (line, rest) =>
      match executeLine line rest st with
      | none => none
      | some (.fatal e st1) => some (.fatal e st1)
      | some (.next rest1 st1) => executeLoop fuel rest1 st1

/-- The method `execute`. -/
def execute {L : FloatLib} (code : Str) (st : State L) : Option (Outcome L) :=
  executeLoop (code.length + 1) code st

/-- The state of a freshly constructed interpreter, with `input` waiting on
the standard input. -/
def initial (L : FloatLib) (input : Str) : State L :=
  { vars := fun _ => none, functions := fun _ => none, cin := input, cout := [] }

/-- A trivial instance of the floating-point parameters, for evaluating the
embedding on programs that use no floating point. -/
def unitFloats : FloatLib :=
  { F := Unit, D := Unit,
    stof := fun _ => .error .invalid_argument,
    stod := fun _ => .error .invalid_argument,
    showF := fun _ => [], showD := fun _ => [] }

/-- The output of a finished or aborted run. -/
def Outcome.cout {L : FloatLib} : Outcome L → Str
  | .done s => s.cout
  | .fatal _ s => s.cout

/-- The program of `main`. -/
def demoProgram : Str :=
  "\nmsg = >>+> Hello_World!\n58 msg\nx = <<- 42\n58 x\nflag = <<>> <<>>\n58 flag\n".toList

/-- The opcode token `58` of the print builtin. -/
def opPrint : Str := ['5', '8']

/-- What is left of a literal once an optional sign `+` or `-` is taken off. -/
def stripSign (t : Str) : Str :=
  if t.head? = some '-' ∨ t.head? = some '+' then t.tail else t

/-- The integer a run of digits `ds` denotes under the sign of the literal `t`. -/
def signedVal (t ds : Str) : Int :=
  if t.head? = some '-' then -(digitsVal ds : Int) else (digitsVal ds : Int)

/-- The range of a 32-bit signed `int`. -/
def InIntRange (v : Int) : Prop :=
  -2147483648 ≤ v ∧ v ≤ 2147483647

instance (v : Int) : Decidable (InIntRange v) := by
  unfold InIntRange; exact inferInstance

/-- A complete decimal integer literal: an optional sign, then one or more
digits and nothing else, denoting a value of the 32-bit signed range. -/
def IsIntLiteral (t : Str) : Prop :=
  stripSign t ≠ [] ∧ (∀ c ∈ stripSign t, isdigit c = true) ∧
    InIntRange (signedVal t (stripSign t))

instance (t : Str) : Decidable (IsIntLiteral t) := by
  unfold IsIntLiteral; exact inferInstance

/-- A literal that starts like a decimal integer: an optional sign, then one or
more digits, the whole run of digits denoting a value of the 32-bit signed
range; anything may follow the digits. -/
def HasIntPrefix (t : Str) : Prop :=
  (stripSign t).takeWhile isdigit ≠ [] ∧
    InIntRange (signedVal t ((stripSign t).takeWhile isdigit))

instance (t : Str) : Decidable (HasIntPrefix t) := by
  unfold HasIntPrefix; exact inferInstance

/-- The payload of a variable is the alternative its tag announces; a Null
variable carries no payload of its own. -/
def Variable.WellTagged {L : FloatLib} (var : Variable L) : Prop :=
  match var.type, var.value with
  | .STRING, .str _ => True
  | .INTEGER, .int _ => True
  | .FLOAT, .flt _ => True
  | .DOUBLE, .dbl _ => True
  | .BOOL, .bool _ => True
  | .CHAR, .chr _ => True
  | .NULLTYPE, _ => True
  | _, _ => False

/-- Two states that have the same variable store and the same standard
streams, and whose function registries agree on every name but `f`. -/
def State.AgreeOff {L : FloatLib} (f : Str) (s1 s2 : State L) : Prop :=
  s1.vars = s2.vars ∧ s1.cout = s2.cout ∧ s1.cin = s2.cin ∧
    ∀ g, g ≠ f → s1.functions g = s2.functions g

/-- Two runs that end the same way (both normally, or both by the same
exception) in states that agree but for the registry entry of `f`. -/
def Outcome.AgreeOff {L : FloatLib} (f : Str) : Outcome L → Outcome L → Prop
  | .done s1, .done s2 => s1.AgreeOff f s2
  | .fatal e1 s1, .fatal e2 s2 => e1 = e2 ∧ s1.AgreeOff f s2
  | _, _ => False

/-- Two passes through the loop body that leave the same stream, or raise the
same exception, in states that agree but for the registry entry of `f`. -/
def LineResult.AgreeOff {L : FloatLib} (f : Str) : LineResult L → LineResult L → Prop
  | .next r1 s1, .next r2 s2 => r1 = r2 ∧ s1.AgreeOff f s2
  | .fatal e1 s1, .fatal e2 s2 => e1 = e2 ∧ s1.AgreeOff f s2
  | _, _ => False

/-- The opcode token `67` of the input builtin. -/
def opInput : Str := ['6', '7']

/-- A non-negative decimal integer written with digits only. -/
def IsDigits (t : Str) : Prop :=
  t ≠ [] ∧ ∀ c ∈ t, isdigit c = true

instance (t : Str) : Decidable (IsDigits t) := by
  unfold IsDigits; exact inferInstance

/-- The maximal runs of characters other than white space in a line, in order:
the pieces between the white space characters, the empty pieces left out. -/
def wordsOf (line : Str) : List Str :=
  (line.splitOnP isspace).filter (fun t => decide (t ≠ []))

/-- The run of `execute` on the text `s` from the state `st` comes, after some
passes through its loop, none of them fatal, to the text `s2` still to be read
in the state `st2`. -/
inductive Reaches {L : FloatLib} : Str → State L → Str → State L → Prop where
  | here (s : Str) (st : State L) : Reaches s st s st
  | step {s line rest rest1 s2 : Str} {st st1 st2 : State L} :
      getline s = some (line, rest) →
      executeLine line rest st = some (.next rest1 st1) →
      Reaches rest1 st1 s2 st2 → Reaches s st s2 st2

/-- A token: a non-empty string without white space. -/
def IsToken (t : Str) : Prop :=
  t ≠ [] ∧ ∀ c ∈ t, isspace c = false

instance (t : Str) : Decidable (IsToken t) := by
  unfold IsToken; exact inferInstance

/-- A line of source text: a string without line feed. -/
def IsLine (l : Str) : Prop :=
  ∀ c ∈ l, c ≠ newline

instance (l : Str) : Decidable (IsLine l) := by
  unfold IsLine; exact inferInstance

/-- The line that consists of the given tokens, separated by single spaces. -/
def unwords : List Str → Str
  | [] => []
  | [t] => t
  | t :: t1 :: ts => t ++ ' ' :: unwords (t1 :: ts)

/-- The text that consists of the given lines, each closed by a line feed. -/
def unlines : List Str → Str
  | [] => []
  | l :: ls => l ++ newline :: unlines ls

/-! ## Streams -/

theorem getline_nil : getline [] = none := rfl

theorem getline_line (line rest : Str) (h : IsLine line) :
    getline (line ++ newline :: rest) = some (line, rest) := by
  have h1 : ∀ a ∈ line, (fun c => c != newline) a = true := by
    intro a ha; simpa using h a ha
  unfold getline
  rw [if_neg (by simp), List.takeWhile_append_of_pos h1, List.dropWhile_append_of_pos h1]
  simp

theorem getline_last (line : Str) (h : IsLine line) (hne : line ≠ []) :
    getline line = some (line, []) := by
  have h1 : ∀ a ∈ line, (fun c => c != newline) a = true := by
    intro a ha; simpa using h a ha
  unfold getline
  rw [if_neg hne, List.takeWhile_eq_self_iff.2 h1, List.dropWhile_eq_nil_iff.2 h1]
  rfl

theorem length_tail_dropWhile_lt (p : Char → Bool) (s : Str) (hne : s ≠ []) :
    ((s.dropWhile p).tail).length < s.length := by
  have h1 : (s.dropWhile p).length ≤ s.length := (List.dropWhile_sublist p).length_le
  have h2 : 0 < s.length := List.length_pos.2 hne
  rw [List.length_tail]
  omega

theorem getline_length {s line rest : Str} (h : getline s = some (line, rest)) :
    rest.length < s.length := by
  unfold getline at h
  split at h
  · cases h
  · rename_i hne
    simp only [Option.some.injEq, Prod.mk.injEq] at h
    rw [← h.2]
    exact length_tail_dropWhile_lt _ s hne

theorem isLine_append {a b : Str} (ha : IsLine a) (hb : IsLine b) : IsLine (a ++ b) := by
  intro c hc
  rcases List.mem_append.1 hc with h | h
  · exact ha c h
  · exact hb c h

theorem isLine_of_isToken {t : Str} (h : IsToken t) : IsLine t := by
  intro c hc hEq
  have := h.2 c hc
  rw [hEq] at this
  exact absurd this (by decide)

theorem isLine_unwords : ∀ ts : List Str, (∀ t ∈ ts, IsToken t) → IsLine (unwords ts)
  | [], _ => by intro c hc; cases hc
  | [t], h => by
    simpa [unwords] using isLine_of_isToken (h t (by simp))
  | t :: t1 :: ts, h => by
    have ih := isLine_unwords (t1 :: ts) (fun x hx => h x (List.mem_cons_of_mem _ hx))
    have ht := isLine_of_isToken (h t (by simp))
    intro c hc
    simp only [unwords, List.mem_append, List.mem_cons] at hc
    rcases hc with hc | hc | hc
    · exact ht c hc
    · rw [hc]; decide
    · exact ih c hc

/-! ## Tokens -/

theorem dropWhile_head_false (p : Char → Bool) :
    ∀ (s : Str) (c : Char) (cs : Str), s.dropWhile p = c :: cs → p c = false
  | [], _, _, h => by cases h
  | a :: as, c, cs, h => by
    by_cases ha : p a = true
    · rw [List.dropWhile_cons_of_pos ha] at h
      exact dropWhile_head_false p as c cs h
    · rw [List.dropWhile_cons_of_neg ha] at h
      cases h
      simpa using ha

theorem extractToken_length {s t r : Str} (h : extractToken s = some (t, r)) :
    r.length < s.length := by
  unfold extractToken at h
  simp only at h
  split at h
  · cases h
  · rename_i hne
    simp only [Option.some.injEq, Prod.mk.injEq] at h
    have h1 : (s.dropWhile isspace).length ≤ s.length := (List.dropWhile_sublist _).length_le
    cases hs : s.dropWhile isspace with
    | nil => exact absurd hs hne
    | cons c cs =>
      have hc : isspace c = false := dropWhile_head_false isspace s c cs hs
      rw [hs] at h h1
      rw [List.dropWhile_cons_of_pos (by simp [hc])] at h
      have h2 : (cs.dropWhile (fun c => !isspace c)).length ≤ cs.length :=
        (List.dropWhile_sublist _).length_le
      rw [← h.2]
      simp only [List.length_cons] at h1
      omega

theorem extractToken_space (c : Char) (s : Str) (hc : isspace c = true) :
    extractToken (c :: s) = extractToken s := by
  unfold extractToken
  rw [List.dropWhile_cons_of_pos hc]

theorem extractToken_token (t rest : Str) (ht : IsToken t)
    (hr : ∀ c ∈ rest.head?, isspace c = true) :
    extractToken (t ++ rest) = some (t, rest) := by
  obtain ⟨hne, hsp⟩ := ht
  have h1 : (t ++ rest).dropWhile isspace = t ++ rest := by
    cases t with
    | nil => exact absurd rfl hne
    | cons a as =>
      have ha : isspace a = false := hsp a (by simp)
      rw [List.cons_append, List.dropWhile_cons_of_neg (by simp [ha])]
  have h2 : ∀ a ∈ t, (fun c => !isspace c) a = true := by
    intro a ha; simp [hsp a ha]
  have h3 : rest.takeWhile (fun c => !isspace c) = [] ∧
      rest.dropWhile (fun c => !isspace c) = rest := by
    cases rest with
    | nil => exact ⟨rfl, rfl⟩
    | cons b bs =>
      have hb : isspace b = true := hr b (by simp)
      exact ⟨List.takeWhile_cons_of_neg (by simp [hb]),
        List.dropWhile_cons_of_neg (by simp [hb])⟩
  unfold extractToken
  simp only [h1]
  rw [if_neg (by simpa using fun h => absurd h hne), List.takeWhile_append_of_pos h2,
    List.dropWhile_append_of_pos h2, h3.1, h3.2]
  simp

theorem tokenizeLoop_acc : ∀ (fuel : Nat) (s : Str) (acc : List Str),
    tokenizeLoop fuel s acc = (tokenizeLoop fuel s []).map (fun ts => acc ++ ts)
  | 0, _, _ => rfl
  | fuel + 1, s, acc => by
    unfold tokenizeLoop
    cases h : extractToken s with
    | none => simp
    | some p =>
      obtain ⟨t, r⟩ := p
      simp only
      rw [tokenizeLoop_acc fuel r (acc ++ [t]), tokenizeLoop_acc fuel r ([] ++ [t])]
      simp [Option.map_map, Function.comp_def]

theorem tokenizeLoop_fuel : ∀ (f1 f2 : Nat) (s : Str) (acc : List Str),
    s.length < f1 → s.length < f2 → tokenizeLoop f1 s acc = tokenizeLoop f2 s acc
  | 0, _, _, _, h, _ => by omega
  | _ + 1, 0, _, _, _, h => by omega
  | f1 + 1, f2 + 1, s, acc, h1, h2 => by
    unfold tokenizeLoop
    cases h : extractToken s with
    | none => rfl
    | some p =>
      obtain ⟨t, r⟩ := p
      have := extractToken_length h
      exact tokenizeLoop_fuel f1 f2 r _ (by omega) (by omega)

theorem tokenize_unfold (s : Str) :
    tokenize s = match extractToken s with
      | none => some []
      | some (t, r) => (tokenize r).map (fun ts => t :: ts) := by
  unfold tokenize
  rw [tokenizeLoop]
  cases h : extractToken s with
  | none => rfl
  | some p =>
    obtain ⟨t, r⟩ := p
    have := extractToken_length h
    simp only
    rw [tokenizeLoop_acc, tokenizeLoop_fuel s.length (r.length + 1) r [] this (by omega)]
    simp

theorem tokenize_total : ∀ (n : Nat) (s : Str), s.length ≤ n → ∃ ts, tokenize s = some ts
  | n, s, hn => by
    rw [tokenize_unfold]
    cases h : extractToken s with
    | none => exact ⟨[], rfl⟩
    | some p =>
      obtain ⟨t, r⟩ := p
      have hlt := extractToken_length h
      cases n with
      | zero => omega
      | succ m =>
        obtain ⟨ts, hts⟩ := tokenize_total m r (by omega)
        exact ⟨t :: ts, by simp [hts]⟩

theorem tokenize_space (c : Char) (s : Str) (hc : isspace c = true) :
    tokenize (c :: s) = tokenize s := by
  rw [tokenize_unfold, tokenize_unfold s, extractToken_space c s hc]

theorem tokenize_token (t : Str) (ht : IsToken t) : tokenize t = some [t] := by
  have h := extractToken_token t [] ht (by simp)
  rw [List.append_nil] at h
  rw [tokenize_unfold, h]
  rfl

theorem tokenize_token_space (t rest : Str) (ht : IsToken t) :
    tokenize (t ++ ' ' :: rest) = (tokenize rest).map (fun ts => t :: ts) := by
  have h := extractToken_token t (' ' :: rest) ht (by simp; decide)
  rw [tokenize_unfold, h]
  simp only
  rw [tokenize_space _ _ (by decide)]

theorem tokenize_unwords : ∀ ts : List Str, (∀ t ∈ ts, IsToken t) →
    tokenize (unwords ts) = some ts
  | [], _ => rfl
  | [t], h => by simpa [unwords] using tokenize_token t (h t (by simp))
  | t :: t1 :: ts, h => by
    have ih := tokenize_unwords (t1 :: ts) (fun x hx => h x (List.mem_cons_of_mem _ hx))
    rw [unwords, tokenize_token_space t _ (h t (by simp)), ih]
    rfl

/-! ## The loops terminate within their fuel -/

theorem captureLoop_fuel : ∀ (f1 f2 : Nat) (s : Str) (acc : List Str),
    s.length < f1 → s.length < f2 → captureLoop f1 s acc = captureLoop f2 s acc
  | 0, _, _, _, h, _ => by omega
  | _ + 1, 0, _, _, _, h => by omega
  | f1 + 1, f2 + 1, s, acc, h1, h2 => by
    unfold captureLoop
    cases h : getline s with
    | none => rfl
    | some p =>
      obtain ⟨line, rest⟩ := p
      have := getline_length h
      simp only
      split
      · rfl
      · exact captureLoop_fuel f1 f2 rest _ (by omega) (by omega)

theorem captureLoop_unfold (s : Str) (acc : List Str) :
    captureLoop (s.length + 1) s acc = match getline s with
      | none => some (acc, s)
      | some (line, rest) =>
        if containsSub kwEnd line then some (acc, rest)
        else captureLoop (rest.length + 1) rest (acc ++ [line]) := by
  rw [captureLoop]
  cases h : getline s with
  | none => rfl
  | some p =>
    obtain ⟨line, rest⟩ := p
    have := getline_length h
    simp only
    rw [captureLoop_fuel s.length (rest.length + 1) rest _ this (by omega)]

theorem captureLoop_total : ∀ (f : Nat) (s : Str) (acc : List Str), s.length < f →
    ∃ body rest, captureLoop f s acc = some (body, rest) ∧ rest.length ≤ s.length
  | 0, _, _, h => by omega
  | f + 1, s, acc, hf => by
    unfold captureLoop
    cases h : getline s with
    | none => exact ⟨acc, s, rfl, le_refl _⟩
    | some p =>
      obtain ⟨line, rest⟩ := p
      have hlt := getline_length h
      simp only
      split
      · exact ⟨acc, rest, rfl, by omega⟩
      · obtain ⟨b, r, hb, hr⟩ := captureLoop_total f rest (acc ++ [line]) (by omega)
        exact ⟨b, r, hb, by omega⟩

theorem parseFunctionDefinition_total {L : FloatLib} (stream : Str) (tokens : List Str)
    (st : State L) :
    ∃ rest st1, parseFunctionDefinition stream tokens st = some (rest, st1) ∧
      rest.length ≤ stream.length := by
  unfold parseFunctionDefinition
  split
  · exact ⟨stream, st, rfl, le_refl _⟩
  · obtain ⟨b, r, hb, hr⟩ := captureLoop_total (stream.length + 1) stream [] (by omega)
    rw [hb]
    exact ⟨r, _, rfl, hr⟩

theorem executeLine_total {L : FloatLib} (line stream : Str) (st : State L) :
    ∃ res, executeLine line stream st = some res ∧
      ∀ rest st1, res = .next rest st1 → rest.length ≤ stream.length := by
  unfold executeLine
  split
  · exact ⟨_, rfl, by intro r s1 h; cases h; exact le_refl _⟩
  · obtain ⟨ts, hts⟩ := tokenize_total line.length line (le_refl _)
    rw [hts]
    simp only
    split
    · exact ⟨_, rfl, by intro r s1 h; cases h; exact le_refl _⟩
    · split
      · obtain ⟨r, s1, h1, h2⟩ := parseFunctionDefinition_total stream ts st
        rw [h1]
        exact ⟨_, rfl, by intro r1 s2 h; cases h; exact h2⟩
      · split
        · split
          · split
            · exact ⟨_, rfl, by intro r s1 h; cases h; exact le_refl _⟩
            · exact ⟨_, rfl, by intro r s1 h; cases h⟩
          · exact ⟨_, rfl, by intro r s1 h; cases h; exact le_refl _⟩
        · split
          · split
            · split
              · exact ⟨_, rfl, by intro r s1 h; cases h; exact le_refl _⟩
              · exact ⟨_, rfl, by intro r s1 h; cases h⟩
            · exact ⟨_, rfl, by intro r s1 h; cases h; exact le_refl _⟩
          · exact ⟨_, rfl, by intro r s1 h; cases h; exact le_refl _⟩

theorem executeLine_length {L : FloatLib} {line stream rest : Str} {st st1 : State L}
    (h : executeLine line stream st = some (.next rest st1)) : rest.length ≤ stream.length := by
  obtain ⟨res, h1, h2⟩ := executeLine_total line stream st
  rw [h1] at h
  cases h
  exact h2 rest st1 rfl

theorem executeLoop_fuel {L : FloatLib} : ∀ (f1 f2 : Nat) (s : Str) (st : State L),
    s.length < f1 → s.length < f2 → executeLoop f1 s st = executeLoop f2 s st
  | 0, _, _, _, h, _ => by omega
  | _ + 1, 0, _, _, _, h => by omega
  | f1 + 1, f2 + 1, s, st, h1, h2 => by
    unfold executeLoop
    cases h : getline s with
    | none => rfl
    | some p =>
      obtain ⟨line, rest⟩ := p
      have hlt := getline_length h
      simp only
      cases hl : executeLine line rest st with
      | none => rfl
      | some res =>
        cases res with
        | fatal e s1 => rfl
        | next r s1 =>
          have := executeLine_length hl
          exact executeLoop_fuel f1 f2 r s1 (by omega) (by omega)

theorem execute_unfold {L : FloatLib} (s : Str) (st : State L) :
    execute s st = match getline s with
      | none => some (.done st)
      | some (line, rest) =>
        match executeLine line rest st with
        | none => none
        | some (.fatal e st1) => some (.fatal e st1)
        | some (.next rest1 st1) => execute rest1 st1 := by
  unfold execute
  rw [executeLoop]
  cases h : getline s with
  | none => rfl
  | some p =>
    obtain ⟨line, rest⟩ := p
    have hlt := getline_length h
    simp only
    cases hl : executeLine line rest st with
    | none => rfl
    | some res =>
      cases res with
      | fatal e s1 => rfl
      | next r s1 =>
        have := executeLine_length hl
        exact executeLoop_fuel _ _ r s1 (by omega) (by omega)

theorem execute_total_aux {L : FloatLib} : ∀ (n : Nat) (s : Str) (st : State L),
    s.length ≤ n → ∃ o, execute s st = some o
  | n, s, st, hn => by
    rw [execute_unfold]
    cases h : getline s with
    | none => exact ⟨_, rfl⟩
    | some p =>
      obtain ⟨line, rest⟩ := p
      have hlt := getline_length h
      obtain ⟨res, h1, h2⟩ := executeLine_total line rest st
      simp only [h1]
      cases res with
      | fatal e s1 => exact ⟨_, rfl⟩
      | next r s1 =>
        have := h2 r s1 rfl
        cases n with
        | zero => omega
        | succ m => exact execute_total_aux m r s1 (by omega)

/-- The method `execute` always comes to an end: the fuel never runs out. -/
theorem execute_total {L : FloatLib} (code : Str) (st : State L) :
    ∃ o, execute code st = some o :=
  execute_total_aux code.length code st (le_refl _)

/-- The program of `main` prints the three values it assigns. -/
theorem demoProgram_output :
    (execute demoProgram (initial unitFloats [])).map Outcome.cout =
      some "Hello_World!\n42\n<<>>\n".toList := by
  decide

theorem execute_nil {L : FloatLib} (st : State L) : execute [] st = some (.done st) := rfl

theorem execute_line {L : FloatLib} (line rest : Str) (st : State L) (h : IsLine line) :
    execute (line ++ newline :: rest) st =
      match executeLine line rest st with
      | none => none
      | some (.fatal e st1) => some (.fatal e st1)
      | some (.next rest1 st1) => execute rest1 st1 := by
  rw [execute_unfold, getline_line line rest h]

theorem execute_last {L : FloatLib} (line : Str) (st : State L) (h : IsLine line)
    (hne : line ≠ []) :
    execute line st =
      match executeLine line [] st with
      | none => none
      | some (.fatal e st1) => some (.fatal e st1)
      | some (.next rest1 st1) => execute rest1 st1 := by
  rw [execute_unfold, getline_last line h hne]

/-! ## Decimal numerals -/

theorem digitChar_spec : ∀ d : Nat, d < 10 →
    isdigit (Nat.digitChar d) = true ∧ (Nat.digitChar d).toNat - 48 = d := by
  decide

theorem isdigit_not_space {c : Char} (h : isdigit c = true) : isspace c = false := by
  simp only [isdigit, Bool.and_eq_true, decide_eq_true_eq] at h
  simp only [isspace, Bool.or_eq_false_iff, Bool.and_eq_false_iff, decide_eq_false_iff_not]
  omega

theorem isdigit_not_sign {c : Char} (h : isdigit c = true) : c ≠ '-' ∧ c ≠ '+' := by
  constructor <;> (rintro rfl; revert h; decide)

theorem digitsVal_foldl (ds : Str) : ∀ acc : Nat,
    ds.foldl (fun acc c => acc * 10 + (c.toNat - 48)) acc
      = acc * 10 ^ ds.length + digitsVal ds := by
  induction ds with
  | nil => intro acc; simp [digitsVal]
  | cons c cs ih =>
    intro acc
    simp only [digitsVal, List.foldl_cons, List.length_cons] at ih ⊢
    rw [ih, ih (0 * 10 + (c.toNat - 48))]
    ring

theorem digitsVal_cons (c : Char) (ds : Str) :
    digitsVal (c :: ds) = (c.toNat - 48) * 10 ^ ds.length + digitsVal ds := by
  rw [digitsVal, List.foldl_cons, digitsVal_foldl]
  simp

theorem toDigitsCore_spec : ∀ (fuel n : Nat) (ds : Str), n < fuel →
    (∀ c ∈ ds, isdigit c = true) →
    (∀ c ∈ Nat.toDigitsCore 10 fuel n ds, isdigit c = true) ∧
      digitsVal (Nat.toDigitsCore 10 fuel n ds) = n * 10 ^ ds.length + digitsVal ds ∧
      Nat.toDigitsCore 10 fuel n ds ≠ []
  | 0, _, _, h, _ => by omega
  | fuel + 1, n, ds, hf, hds => by
    have hd := digitChar_spec (n % 10) (Nat.mod_lt _ (by decide))
    have hds1 : ∀ c ∈ Nat.digitChar (n % 10) :: ds, isdigit c = true := by
      intro c hc
      rcases List.mem_cons.1 hc with h | h
      · rw [h]; exact hd.1
      · exact hds c h
    unfold Nat.toDigitsCore
    simp only
    split
    · rename_i h0
      refine ⟨hds1, ?_, by simp⟩
      rw [digitsVal_cons, hd.2]
      have : n % 10 = n := by omega
      rw [this]
    · rename_i h0
      obtain ⟨h1, h2, h3⟩ := toDigitsCore_spec fuel (n / 10) _ (by omega) hds1
      refine ⟨h1, ?_, h3⟩
      rw [h2, digitsVal_cons, hd.2, List.length_cons, pow_succ]
      have : n = n / 10 * 10 + n % 10 := by omega
      nth_rewrite 3 [this]
      ring

theorem toDigits_spec (n : Nat) :
    (∀ c ∈ Nat.toDigits 10 n, isdigit c = true) ∧ digitsVal (Nat.toDigits 10 n) = n ∧
      Nat.toDigits 10 n ≠ [] := by
  have h := toDigitsCore_spec (n + 1) n [] (by omega) (by simp)
  simpa [Nat.toDigits, digitsVal] using h

theorem showInt_isToken (k : Int) : IsToken (showInt k) := by
  obtain ⟨h1, _, h3⟩ := toDigits_spec k.natAbs
  unfold showInt
  split
  · refine ⟨by simp, ?_⟩
    intro c hc
    rcases List.mem_cons.1 hc with h | h
    · rw [h]; decide
    · exact isdigit_not_space (h1 c h)
  · exact ⟨h3, fun c hc => isdigit_not_space (h1 c hc)⟩

theorem stoi_digits (ds : Str) (hne : ds ≠ []) (hd : ∀ c ∈ ds, isdigit c = true)
    (hr : (digitsVal ds : Int) ≤ 2147483647) : stoi ds = .ok (digitsVal ds : Int) := by
  cases ds with
  | nil => exact absurd rfl hne
  | cons a as =>
    have ha : isdigit a = true := hd a (by simp)
    have hsp := isdigit_not_space ha
    have hsg := isdigit_not_sign ha
    have htw : (a :: as).takeWhile isdigit = a :: as := List.takeWhile_eq_self_iff.2 hd
    have hdw : (a :: as).dropWhile isspace = a :: as :=
      List.dropWhile_cons_of_neg (by simp [hsp])
    have hrange : ¬ ((digitsVal (a :: as) : Int) < -2147483648 ∨
        2147483647 < (digitsVal (a :: as) : Int)) := by omega
    unfold stoi
    simp only [hdw, List.head?_cons, Option.some.injEq, hsg.1, hsg.2, or_self, if_false, htw,
      decide_False, Bool.false_eq_true, hrange]
    rw [if_neg (by simp)]

theorem stoi_neg_digits (ds : Str) (hne : ds ≠ []) (hd : ∀ c ∈ ds, isdigit c = true)
    (hr : (digitsVal ds : Int) ≤ 2147483648) :
    stoi ('-' :: ds) = .ok (-(digitsVal ds : Int)) := by
  have htw : ds.takeWhile isdigit = ds := List.takeWhile_eq_self_iff.2 hd
  have hdw : ('-' :: ds).dropWhile isspace = '-' :: ds :=
    List.dropWhile_cons_of_neg (by decide)
  have hrange : ¬ (-(digitsVal ds : Int) < -2147483648 ∨
      2147483647 < -(digitsVal ds : Int)) := by omega
  unfold stoi
  simp only [hdw, List.head?_cons, true_or, if_true, List.tail_cons, htw, decide_True, hrange,
    if_false]
  rw [if_neg hne]

theorem stoi_showInt (k : Int) (hlo : -2147483648 ≤ k) (hhi : k ≤ 2147483647) :
    stoi (showInt k) = .ok k := by
  obtain ⟨h1, h2, h3⟩ := toDigits_spec k.natAbs
  unfold showInt
  split
  · rename_i hneg
    have hk : -(digitsVal (Nat.toDigits 10 k.natAbs) : Int) = k := by rw [h2]; omega
    rw [stoi_neg_digits _ h3 h1 (by rw [h2]; omega), hk]
  · rename_i hneg
    have hk : (digitsVal (Nat.toDigits 10 k.natAbs) : Int) = k := by rw [h2]; omega
    rw [stoi_digits _ h3 h1 (by rw [h2]; omega), hk]

/-! ## One statement at a time -/

theorem unwords_ne_nil (t : Str) (ts : List Str) (ht : IsToken t) : unwords (t :: ts) ≠ [] := by
  cases ts with
  | nil => simpa [unwords] using ht.1
  | cons t1 ts => simp [unwords]

theorem isToken_kwAssign : IsToken kwAssign := by decide

theorem executeLine_assign {L : FloatLib} (n m v stream : Str) (st : State L)
    (hn : IsToken n) (hinit : n ≠ kwInit) (hm : IsToken m) (hv : IsToken v) :
    executeLine (unwords [n, kwAssign, m, v]) stream st =
      match assignValue (⟨parseDataType m, .str []⟩ : Variable L) v with
      | .ok var1 => some (.next stream { st with vars := mapSet st.vars n var1 })
      | .error e => some (.fatal e st) := by
  have htok := tokenize_unwords [n, kwAssign, m, v]
    (by simp only [List.mem_cons, List.mem_singleton, List.not_mem_nil, or_false]
        rintro t (h | h | h | h) <;> rw [h] <;> first | assumption | exact isToken_kwAssign)
  unfold executeLine
  rw [if_neg (unwords_ne_nil n _ hn), htok]
  simp [hinit]

theorem executeLine_declare {L : FloatLib} (n m stream : Str) (st : State L)
    (hn : IsToken n) (hinit : n ≠ kwInit) (hm : IsToken m) :
    executeLine (unwords [n, kwAssign, m]) stream st =
      some (.next stream { st with vars := mapSet st.vars n ⟨parseDataType m, .str []⟩ }) := by
  have htok := tokenize_unwords [n, kwAssign, m]
    (by simp only [List.mem_cons, List.mem_singleton, List.not_mem_nil, or_false]
        rintro t (h | h | h) <;> rw [h] <;> first | assumption | exact isToken_kwAssign)
  unfold executeLine
  rw [if_neg (unwords_ne_nil n _ hn), htok]
  simp [hinit]

theorem executeLine_builtin {L : FloatLib} (op a stream : Str) (st : State L)
    (hop : IsToken op) (hinit : op ≠ kwInit) (ha : IsToken a) :
    executeLine (unwords [op, a]) stream st =
      if parseBuiltin op ≠ -1 then
        match executeBuiltin (parseBuiltin op) a st with
        | .done st1 => some (.next stream st1)
        | .fatal e st1 => some (.fatal e st1)
      else some (.next stream st) := by
  have htok := tokenize_unwords [op, a]
    (by simp only [List.mem_cons, List.mem_singleton, List.not_mem_nil, or_false]
        rintro t (h | h) <;> rw [h] <;> assumption)
  unfold executeLine
  rw [if_neg (unwords_ne_nil op _ hop), htok]
  simp [hinit]

theorem mapSet_self {α : Type} (m : Str → Option α) (key : Str) (v : α) :
    mapSet m key v key = some v := by
  simp [mapSet]

theorem mapSet_other {α : Type} (m : Str → Option α) (key k : Str) (v : α) (h : k ≠ key) :
    mapSet m key v k = m k := by
  simp [mapSet, h]

theorem isToken_opPrint : IsToken opPrint := by decide

theorem parseBuiltin_opPrint : parseBuiltin opPrint = 58 := by decide

theorem outcome_of_print {L : FloatLib} (stream : Str) (o : Outcome L) :
    (match (match o with
        | .done st1 => some (LineResult.next stream st1)
        | .fatal e st1 => some (LineResult.fatal e st1)) with
      | none => none
      | some (.fatal e st1) => some (Outcome.fatal e st1)
      | some (.next rest1 st1) => execute rest1 st1) =
    match o with
    | .done st1 => execute stream st1
    | .fatal e st1 => some (.fatal e st1) := by
  cases o <;> rfl

/-- A four-token assignment followed by a print of the same name: the value is
coerced, bound, and handed to the printer. -/
theorem execute_assign_print {L : FloatLib} (n m v : Str) (st : State L) (var1 : Variable L)
    (hn : IsToken n) (hinit : n ≠ kwInit) (hm : IsToken m) (hv : IsToken v)
    (hval : assignValue (⟨parseDataType m, .str []⟩ : Variable L) v = .ok var1) :
    execute (unlines [unwords [n, kwAssign, m, v], unwords [opPrint, n]]) st =
      some (printVariable var1 { st with vars := mapSet st.vars n var1 }) := by
  have hl1 : IsLine (unwords [n, kwAssign, m, v]) := isLine_unwords _
    (by simp only [List.mem_cons, List.mem_singleton, List.not_mem_nil, or_false]
        rintro t (h | h | h | h) <;> rw [h] <;> first | assumption | exact isToken_kwAssign)
  have hl2 : IsLine (unwords [opPrint, n]) := isLine_unwords _
    (by simp only [List.mem_cons, List.mem_singleton, List.not_mem_nil, or_false]
        rintro t (h | h) <;> rw [h] <;> first | assumption | exact isToken_opPrint)
  simp only [unlines]
  rw [execute_line _ _ _ hl1, executeLine_assign n m v _ st hn hinit hm hv, hval]
  simp only
  rw [execute_line _ _ _ hl2, executeLine_builtin opPrint n _ _ isToken_opPrint (by decide) hn,
    parseBuiltin_opPrint, if_pos (by decide)]
  simp only [executeBuiltin, if_true, mapSet_self]
  rw [outcome_of_print]
  cases printVariable var1 { st with vars := mapSet st.vars n var1 } <;> rfl

/-! ## The type tagger -/

/-- C1: `parseDataType` is a total function that follows the fixed table: it
yields String exactly on `>>+>`, Integer exactly on `<<-`, Float exactly on
`>>+>>`, Double exactly on `>><<++--__`, Bool exactly on `<<>>` and `>>`, Char
exactly on `_+_`, and Null on every other token: on `_-_`, on the empty token,
on a token that only starts with a marker. -/
theorem parseDataType_table (token : Str) :
    (parseDataType token = .STRING ↔ token = ">>+>".toList) ∧
    (parseDataType token = .INTEGER ↔ token = "<<-".toList) ∧
    (parseDataType token = .FLOAT ↔ token = ">>+>>".toList) ∧
    (parseDataType token = .DOUBLE ↔ token = ">><<++--__".toList) ∧
    (parseDataType token = .BOOL ↔ (token = "<<>>".toList ∨ token = ">>".toList)) ∧
    (parseDataType token = .CHAR ↔ token = "_+_".toList) ∧
    (parseDataType token = .NULLTYPE ↔
      token ∉ [">>+>".toList, "<<-".toList, ">>+>>".toList, ">><<++--__".toList,
        "<<>>".toList, ">>".toList, "_+_".toList]) ∧
    parseDataType "_-_".toList = .NULLTYPE ∧
    parseDataType [] = .NULLTYPE ∧
    parseDataType (">>+>".toList ++ "x".toList) = .NULLTYPE := by
  have e1 : ">>+>".toList = mkString := rfl
  have e2 : "<<-".toList = mkInteger := rfl
  have e3 : ">>+>>".toList = mkFloat := rfl
  have e4 : ">><<++--__".toList = mkDouble := rfl
  have e5 : "<<>>".toList = mkTrue := rfl
  have e6 : ">>".toList = mkFalse := rfl
  have e7 : "_+_".toList = mkChar := rfl
  have e8 : "_-_".toList = mkNull := rfl
  have e9 : "x".toList = ['x'] := rfl
  rw [e1, e2, e3, e4, e5, e6, e7, e8, e9]
  by_cases h1 : token = mkString
  · subst h1; decide
  by_cases h2 : token = mkInteger
  · subst h2; decide
  by_cases h3 : token = mkFloat
  · subst h3; decide
  by_cases h4 : token = mkDouble
  · subst h4; decide
  by_cases h5 : token = mkTrue
  · subst h5; decide
  by_cases h6 : token = mkFalse
  · subst h6; decide
  by_cases h7 : token = mkChar
  · subst h7; decide
  have hp : parseDataType token = .NULLTYPE := by
    unfold parseDataType
    simp only [h1, h2, h3, h4, h5, h6, h7, if_false, ite_self]
  have hn1 : parseDataType mkNull = .NULLTYPE := by decide
  have hn2 : parseDataType [] = .NULLTYPE := by decide
  have hn3 : parseDataType (mkString ++ ['x']) = .NULLTYPE := by decide
  rw [hp, hn1, hn2, hn3]
  simp [h1, h2, h3, h4, h5, h6, h7]

/-! ## Assigning and printing -/

/-- C2: String round trip.  From every state, for every name token `n` other
than `init` and every token `v`, the two lines `n = >>+> v` and `58 n` run to
completion, bind `n` to the String `v`, and append to the output exactly the
one line `v`. -/
theorem string_assign_print {L : FloatLib} (st : State L) (n v : Str)
    (hn : IsToken n) (hinit : n ≠ "init".toList) (hv : IsToken v) :
    execute (unlines [unwords [n, "=".toList, ">>+>".toList, v],
        unwords ["58".toList, n]]) st =
      some (.done { st with vars := mapSet st.vars n ⟨.STRING, .str v⟩,
                            cout := st.cout ++ v ++ [newline] }) := by
  have h := execute_assign_print n mkString v st ⟨.STRING, .str v⟩ hn hinit (by decide) hv rfl
  exact h

theorem string_assign_print_witness :
    IsToken "msg".toList ∧ "msg".toList ≠ "init".toList ∧ IsToken "Hello_World!".toList ∧
    execute (unlines [unwords ["msg".toList, "=".toList, ">>+>".toList, "Hello_World!".toList],
        unwords ["58".toList, "msg".toList]]) (initial unitFloats []) =
      some (.done { initial unitFloats [] with
        vars := mapSet (initial unitFloats []).vars "msg".toList
          ⟨.STRING, .str "Hello_World!".toList⟩,
        cout := (initial unitFloats []).cout ++ "Hello_World!".toList ++ [newline] }) :=
  ⟨by decide, by decide, by decide,
    string_assign_print (initial unitFloats []) "msg".toList "Hello_World!".toList
      (by decide) (by decide) (by decide)⟩

/-- C3: Integer round trip.  For every integer `k` of the 32-bit signed range,
with `d = showInt k` its decimal rendering, the two lines `n = <<- d` and
`58 n` (for `x` or any other name token `n` but `init`) run to completion,
bind `n` to the Integer `k`, and append to the output exactly the one line
`d`. -/
theorem integer_assign_print {L : FloatLib} (st : State L) (n : Str) (k : Int)
    (hn : IsToken n) (hinit : n ≠ "init".toList)
    (hlo : -2147483648 ≤ k) (hhi : k ≤ 2147483647) :
    execute (unlines [unwords [n, "=".toList, "<<-".toList, showInt k],
        unwords ["58".toList, n]]) st =
      some (.done { st with vars := mapSet st.vars n ⟨.INTEGER, .int k⟩,
                            cout := st.cout ++ showInt k ++ [newline] }) := by
  have hval : assignValue (⟨parseDataType mkInteger, .str []⟩ : Variable L) (showInt k)
      = .ok ⟨.INTEGER, .int k⟩ := by
    have hp : parseDataType mkInteger = .INTEGER := by decide
    rw [hp]
    simp only [assignValue, stoi_showInt k hlo hhi]
  have h := execute_assign_print n mkInteger (showInt k) st ⟨.INTEGER, .int k⟩ hn hinit
    (by decide) (showInt_isToken k) hval
  exact h

theorem integer_assign_print_witness :
    IsToken "x".toList ∧ "x".toList ≠ "init".toList ∧
    (-2147483648 : Int) ≤ 42 ∧ (42 : Int) ≤ 2147483647 ∧ showInt 42 = "42".toList ∧
    execute (unlines [unwords ["x".toList, "=".toList, "<<-".toList, showInt 42],
        unwords ["58".toList, "x".toList]]) (initial unitFloats []) =
      some (.done { initial unitFloats [] with
        vars := mapSet (initial unitFloats []).vars "x".toList ⟨.INTEGER, .int 42⟩,
        cout := (initial unitFloats []).cout ++ showInt 42 ++ [newline] }) :=
  ⟨by decide, by decide, by decide, by decide, by decide,
    integer_assign_print (initial unitFloats []) "x".toList 42
      (by decide) (by decide) (by decide) (by decide)⟩

/-- C4: Bool coercion and echo.  For either Bool marker `m` (`<<>>` or `>>`)
and every literal token `v`, the two lines `n = m v` and `58 n` (for `flag` or
any other name token `n` but `init`) run to completion without failure and
append to the output exactly one line: the marker `<<>>` when `v` is `<<>>`,
the marker `>>` for every other `v`; that line is never the word `true` or
`false`. -/
theorem bool_assign_print {L : FloatLib} (st : State L) (n m v : Str)
    (hn : IsToken n) (hinit : n ≠ "init".toList)
    (hm : m = "<<>>".toList ∨ m = ">>".toList) (hv : IsToken v) :
    execute (unlines [unwords [n, "=".toList, m, v], unwords ["58".toList, n]]) st =
      some (.done { st with
        vars := mapSet st.vars n ⟨.BOOL, .bool (decide (v = "<<>>".toList))⟩,
        cout := st.cout ++ (if v = "<<>>".toList then "<<>>".toList else ">>".toList)
          ++ [newline] }) ∧
    (if v = "<<>>".toList then "<<>>".toList else ">>".toList) ≠ "true".toList ∧
    (if v = "<<>>".toList then "<<>>".toList else ">>".toList) ≠ "false".toList := by
  have hmt : IsToken m := by
    rcases hm with h | h <;> rw [h] <;> decide
  have hp : parseDataType m = .BOOL := by
    rcases hm with h | h <;> rw [h] <;> decide
  have hval : assignValue (⟨parseDataType m, .str []⟩ : Variable L) v
      = .ok ⟨.BOOL, .bool (decide (v = mkTrue))⟩ := by
    rw [hp]; rfl
  have h := execute_assign_print n m v st _ hn hinit hmt hv hval
  refine ⟨?_, ?_, ?_⟩
  · rw [show "=".toList = kwAssign from rfl, show "58".toList = opPrint from rfl, h,
      show "<<>>".toList = mkTrue from rfl, show ">>".toList = mkFalse from rfl]
    by_cases hvt : v = mkTrue <;> simp [printVariable, putLine, hvt]
  · split <;> decide
  · split <;> decide

theorem bool_assign_print_witness :
    IsToken "flag".toList ∧ "flag".toList ≠ "init".toList ∧
    ("<<>>".toList = "<<>>".toList ∨ "<<>>".toList = ">>".toList) ∧ IsToken "<<>>".toList ∧
    (execute (unlines [unwords ["flag".toList, "=".toList, "<<>>".toList, "<<>>".toList],
        unwords ["58".toList, "flag".toList]]) (initial unitFloats []) =
      some (.done { initial unitFloats [] with
        vars := mapSet (initial unitFloats []).vars "flag".toList
          ⟨.BOOL, .bool (decide ("<<>>".toList = "<<>>".toList))⟩,
        cout := (initial unitFloats []).cout ++
          (if "<<>>".toList = "<<>>".toList then "<<>>".toList else ">>".toList)
          ++ [newline] }) ∧
    (if "<<>>".toList = "<<>>".toList then "<<>>".toList else ">>".toList) ≠ "true".toList ∧
    (if "<<>>".toList = "<<>>".toList then "<<>>".toList else ">>".toList) ≠ "false".toList) :=
  ⟨by decide, by decide, by decide, by decide,
    bool_assign_print (initial unitFloats []) "flag".toList "<<>>".toList "<<>>".toList
      (by decide) (by decide) (by decide) (by decide)⟩

/-! ## Numeric literals that do not parse -/

theorem stoi_token (t : Str) (ht : IsToken t) :
    stoi t =
      if (stripSign t).takeWhile isdigit = [] then .error .invalid_argument
      else if InIntRange (signedVal t ((stripSign t).takeWhile isdigit)) then
        .ok (signedVal t ((stripSign t).takeWhile isdigit))
      else .error .out_of_range := by
  have hdw : t.dropWhile isspace = t := by
    cases t with
    | nil => rfl
    | cons a as =>
      exact List.dropWhile_cons_of_neg (by simp [ht.2 a (by simp)])
  unfold stoi
  simp only [hdw, stripSign, signedVal, InIntRange, decide_eq_true_eq]
  split_ifs <;> first | rfl | (exfalso; omega)

/-- C5, the claim as written fails: `42abc` is not a complete decimal integer
literal, yet `n = <<- 42abc` is not fatal; `stoi` reads the leading `42`, the
run goes on to its end and `n` is bound to the Integer 42. -/
theorem integer_literal_trailing_text_accepted :
    IsToken "42abc".toList ∧ ¬ IsIntLiteral "42abc".toList ∧
    execute (unlines [unwords ["n".toList, "=".toList, "<<-".toList, "42abc".toList]])
        (initial unitFloats []) =
      some (.done { initial unitFloats [] with
        vars := mapSet (initial unitFloats []).vars "n".toList ⟨.INTEGER, .int 42⟩ }) := by
  refine ⟨by decide, by decide, ?_⟩
  have hl : IsLine (unwords ["n".toList, kwAssign, mkInteger, "42abc".toList]) := by decide
  have hs : stoi "42abc".toList = .ok 42 := by rfl
  have h := execute_line (unwords ["n".toList, kwAssign, mkInteger, "42abc".toList]) []
    (initial unitFloats []) hl
  rw [executeLine_assign "n".toList mkInteger "42abc".toList [] (initial unitFloats [])
    (by decide) (by decide) (by decide) (by decide)] at h
  have hp : parseDataType mkInteger = .INTEGER := by decide
  simp only [hp, assignValue, hs] at h
  exact h

/-- C5, amended: for every literal token `t` that does not start like a decimal
integer (after an optional sign there is no digit, or the run of digits denotes
a value outside the 32-bit signed range), the line `n = <<- t` ends the run
with the exception of `stoi`, whatever follows it in the program; the state is
the one before the line, so `n` is bound to nothing new. -/
theorem integer_assign_fatal {L : FloatLib} (st : State L) (n t rest : Str)
    (hn : IsToken n) (hinit : n ≠ "init".toList) (ht : IsToken t) (hbad : ¬ HasIntPrefix t) :
    ∃ e, (e = Exn.invalid_argument ∨ e = Exn.out_of_range) ∧
      execute (unwords [n, "=".toList, "<<-".toList, t] ++ newline :: rest) st =
        some (.fatal e st) := by
  have hl : IsLine (unwords [n, kwAssign, mkInteger, t]) := isLine_unwords _
    (by simp only [List.mem_cons, List.mem_singleton, List.not_mem_nil, or_false]
        rintro x (h | h | h | h) <;> rw [h] <;> first | assumption | decide)
  have hp : parseDataType mkInteger = .INTEGER := by decide
  have hex : execute (unwords [n, kwAssign, mkInteger, t] ++ newline :: rest) st =
      match stoi t with
      | .ok i => execute rest { st with vars := mapSet st.vars n ⟨.INTEGER, .int i⟩ }
      | .error e => some (.fatal e st) := by
    rw [execute_line _ _ _ hl, executeLine_assign n mkInteger t _ st hn hinit (by decide) ht, hp]
    simp only [assignValue]
    cases stoi t <;> rfl
  rw [show "=".toList = kwAssign from rfl, show "<<-".toList = mkInteger from rfl, hex,
    stoi_token t ht]
  unfold HasIntPrefix at hbad
  by_cases h1 : (stripSign t).takeWhile isdigit = []
  · exact ⟨_, Or.inl rfl, by rw [if_pos h1]⟩
  · have h2 : ¬ InIntRange (signedVal t ((stripSign t).takeWhile isdigit)) :=
      fun h => hbad ⟨h1, h⟩
    exact ⟨_, Or.inr rfl, by rw [if_neg h1, if_neg h2]⟩

theorem integer_assign_fatal_witness :
    IsToken "n".toList ∧ "n".toList ≠ "init".toList ∧ IsToken "abc".toList ∧
    ¬ HasIntPrefix "abc".toList ∧
    ∃ e, (e = Exn.invalid_argument ∨ e = Exn.out_of_range) ∧
      execute (unwords ["n".toList, "=".toList, "<<-".toList, "abc".toList]
          ++ newline :: "58 n\n".toList) (initial unitFloats []) =
        some (.fatal e (initial unitFloats [])) :=
  ⟨by decide, by decide, by decide, by decide,
    integer_assign_fatal (initial unitFloats []) "n".toList "abc".toList "58 n\n".toList
      (by decide) (by decide) (by decide) (by decide)⟩

/-! ## Tag and payload -/

/-- C6, at the failing input: the three-token assignment `x = <<-` run from the
empty store binds `x` to a variable tagged Integer whose payload is still the
empty string the variant starts with, so the tag and the payload disagree; the
print `58 x` that follows then dies of `bad_variant_access` and writes
nothing. -/
theorem declare_without_literal_breaks_tag :
    ∃ st1 : State unitFloats,
      execute (unlines [unwords ["x".toList, "=".toList, "<<-".toList]])
        (initial unitFloats []) = some (.done st1) ∧
      st1.vars "x".toList = some ⟨.INTEGER, .str []⟩ ∧
      ¬ (⟨.INTEGER, .str []⟩ : Variable unitFloats).WellTagged ∧
      execute (unlines [unwords ["x".toList, "=".toList, "<<-".toList],
          unwords ["58".toList, "x".toList]]) (initial unitFloats []) =
        some (.fatal .bad_variant_access st1) ∧
      st1.cout = [] := by
  have hl1 : IsLine (unwords ["x".toList, kwAssign, mkInteger]) := by decide
  have hl2 : IsLine (unwords [opPrint, "x".toList]) := by decide
  have hp : parseDataType mkInteger = .INTEGER := by decide
  have h1 := executeLine_declare "x".toList mkInteger [] (initial unitFloats [])
    (by decide) (by decide) (by decide)
  have h2 := executeLine_declare "x".toList mkInteger (unlines [unwords [opPrint, "x".toList]])
    (initial unitFloats []) (by decide) (by decide) (by decide)
  rw [hp] at h1 h2
  refine ⟨{ initial unitFloats [] with
    vars := mapSet (initial unitFloats []).vars "x".toList ⟨.INTEGER, .str []⟩ }, ?_, ?_, ?_, ?_, rfl⟩
  · have h := execute_line (unwords ["x".toList, kwAssign, mkInteger]) []
      (initial unitFloats []) hl1
    rw [h1] at h
    exact h
  · show mapSet (initial unitFloats []).vars "x".toList _ "x".toList = _
    exact mapSet_self _ _ _
  · intro h; exact h
  · have h := execute_line (unwords ["x".toList, kwAssign, mkInteger])
      (unlines [unwords [opPrint, "x".toList]]) (initial unitFloats []) hl1
    rw [h2] at h
    simp only [unlines] at h
    rw [execute_line _ _ _ hl2, executeLine_builtin opPrint "x".toList _ _ isToken_opPrint
      (by decide) (by decide), parseBuiltin_opPrint, if_pos (by decide)] at h
    simp only [executeBuiltin, if_true, mapSet_self, printVariable] at h
    exact h

/-! ## Builtins -/

/-- C9: printing an unknown name echoes the argument.  In every state, for
every token `a` that the variable store does not bind, the line `58 a` appends
to the output exactly the one line `a` and changes nothing else: the variable
store (where `a` stays unbound) and the function registry are as before, and
the run goes on with the rest of the program. -/
theorem print_unknown_name {L : FloatLib} (st : State L) (a rest : Str)
    (ha : IsToken a) (hun : st.vars a = none) :
    execute (unwords ["58".toList, a] ++ newline :: rest) st =
      execute rest { st with cout := st.cout ++ a ++ [newline] } := by
  have hl : IsLine (unwords [opPrint, a]) := isLine_unwords _
    (by simp only [List.mem_cons, List.mem_singleton, List.not_mem_nil, or_false]
        rintro x (h | h) <;> rw [h] <;> first | assumption | decide)
  rw [show "58".toList = opPrint from rfl, execute_line _ _ _ hl,
    executeLine_builtin opPrint a _ _ isToken_opPrint (by decide) ha, parseBuiltin_opPrint,
    if_pos (by decide)]
  simp only [executeBuiltin, if_true, hun]
  rfl

theorem print_unknown_name_witness :
    IsToken "hello".toList ∧ (initial unitFloats []).vars "hello".toList = none ∧
    execute (unwords ["58".toList, "hello".toList] ++ newline :: []) (initial unitFloats []) =
      execute [] { initial unitFloats [] with
        cout := (initial unitFloats []).cout ++ "hello".toList ++ [newline] } :=
  ⟨by decide, rfl,
    print_unknown_name (initial unitFloats []) "hello".toList [] (by decide) rfl⟩

/-- C10: the arithmetic opcodes are not implemented.  In every state, for each
opcode token among `24`, `32`, `15`, `45`, `40`, `0` and every argument token
`a`, the line `<opcode> a` appends to the output exactly one line, the fixed
notice `mathNotice` (a text without line feed), the same for the six opcodes
and whatever `a` is, and changes nothing else: the variable store and the function registry are as
before, and the run goes on with the rest of the program. -/
theorem arithmetic_not_implemented {L : FloatLib} (st : State L) (op a rest : Str)
    (hop : op ∈ ["24".toList, "32".toList, "15".toList, "45".toList, "40".toList, "0".toList])
    (ha : IsToken a) :
    execute (unwords [op, a] ++ newline :: rest) st =
      execute rest { st with cout := st.cout ++ mathNotice ++ [newline] } ∧
    IsLine mathNotice := by
  refine ⟨?_, by decide⟩
  have hprops : IsToken op ∧ op ≠ kwInit ∧
      (parseBuiltin op = 24 ∨ parseBuiltin op = 32 ∨ parseBuiltin op = 15 ∨
        parseBuiltin op = 45 ∨ parseBuiltin op = 40 ∨ parseBuiltin op = 0) := by
    simp only [List.mem_cons, List.mem_singleton, List.not_mem_nil, or_false] at hop
    rcases hop with h | h | h | h | h | h <;> rw [h] <;> decide
  obtain ⟨hopt, hinit, hcode⟩ := hprops
  have hl : IsLine (unwords [op, a]) := isLine_unwords _
    (by simp only [List.mem_cons, List.mem_singleton, List.not_mem_nil, or_false]
        rintro x (h | h) <;> rw [h] <;> assumption)
  have hne : parseBuiltin op ≠ -1 := by omega
  have h58 : parseBuiltin op ≠ 58 := by omega
  have h67 : parseBuiltin op ≠ 67 := by omega
  rw [execute_line _ _ _ hl, executeLine_builtin op a _ _ hopt hinit ha, if_pos hne]
  simp only [executeBuiltin, h58, h67, if_false, hcode, if_true]
  rfl

theorem arithmetic_not_implemented_witness :
    "24".toList ∈ ["24".toList, "32".toList, "15".toList, "45".toList, "40".toList,
      "0".toList] ∧ IsToken "7".toList ∧
    (execute (unwords ["24".toList, "7".toList] ++ newline :: []) (initial unitFloats []) =
      execute [] { initial unitFloats [] with
        cout := (initial unitFloats []).cout ++ mathNotice ++ [newline] } ∧
    IsLine mathNotice) :=
  ⟨by decide, by decide,
    arithmetic_not_implemented (initial unitFloats []) "24".toList "7".toList []
      (by decide) (by decide)⟩

/-! ## Function definitions -/

theorem containsSub_iff (needle : Str) : ∀ s : Str,
    containsSub needle s = true ↔ needle <:+: s
  | [] => by simp [containsSub]
  | c :: cs => by
    rw [containsSub, Bool.or_eq_true, containsSub_iff needle cs, List.infix_cons_iff,
      List.isPrefixOf_iff_prefix]

theorem captureLoop_body : ∀ (body : List Str) (acc : List Str) (tail : Str),
    (∀ b ∈ body, IsLine b ∧ ¬ kwEnd <:+: b) →
    captureLoop ((unlines body ++ tail).length + 1) (unlines body ++ tail) acc =
      captureLoop (tail.length + 1) tail (acc ++ body)
  | [], acc, tail, _ => by simp [unlines]
  | b :: bs, acc, tail, h => by
    have hb := h b (by simp)
    have hc : containsSub kwEnd b = false := by
      rw [← Bool.not_eq_true, containsSub_iff]; exact hb.2
    have ih := captureLoop_body bs (acc ++ [b]) tail
      (fun x hx => h x (List.mem_cons_of_mem _ hx))
    have e : unlines (b :: bs) ++ tail = b ++ newline :: (unlines bs ++ tail) := by
      simp [unlines]
    rw [e, captureLoop_unfold, getline_line b _ hb.1]
    simp only [hc, Bool.false_eq_true, if_false]
    rw [ih]
    simp

theorem captureLoop_nil (acc : List Str) : captureLoop 1 [] acc = some (acc, []) := rfl

theorem captureLoop_term (term R : Str) (acc : List Str) (hl : IsLine term)
    (hend : kwEnd <:+: term) :
    captureLoop ((term ++ newline :: R).length + 1) (term ++ newline :: R) acc =
      some (acc, R) := by
  have hc : containsSub kwEnd term = true := (containsSub_iff kwEnd term).2 hend
  rw [captureLoop_unfold, getline_line term _ hl]
  simp only [hc, if_true]

theorem infix_ne_nil {term : Str} (hend : kwEnd <:+: term) : term ≠ [] := by
  rintro rfl
  rw [List.infix_nil] at hend
  exact absurd hend (by decide)

theorem captureLoop_term_last (term : Str) (acc : List Str) (hl : IsLine term)
    (hend : kwEnd <:+: term) :
    captureLoop (term.length + 1) term acc = some (acc, []) := by
  have hc : containsSub kwEnd term = true := (containsSub_iff kwEnd term).2 hend
  rw [captureLoop_unfold, getline_last term hl (infix_ne_nil hend)]
  simp only [hc, if_true]

theorem captureLoop_last (last : Str) (acc : List Str) (hl : IsLine last) (hne : last ≠ [])
    (hend : ¬ kwEnd <:+: last) :
    captureLoop (last.length + 1) last acc = some (acc ++ [last], []) := by
  have hc : containsSub kwEnd last = false := by
    rw [← Bool.not_eq_true, containsSub_iff]; exact hend
  rw [captureLoop_unfold, getline_last last hl hne]
  simp only [hc, Bool.false_eq_true, if_false]
  rfl

theorem executeLine_define {L : FloatLib} (f t2 t3 t4 : Str) (more : List Str) (stream : Str)
    (st : State L) (htoks : ∀ t ∈ f :: t2 :: t3 :: t4 :: more, IsToken t) :
    executeLine (unwords (kwInit :: f :: t2 :: t3 :: t4 :: more)) stream st =
      match captureLoop (stream.length + 1) stream [] with
      | none => none
      | some (funcBody, rest) =>
        some (.next rest { st with functions := mapSet st.functions f funcBody }) := by
  have htok := tokenize_unwords (kwInit :: f :: t2 :: t3 :: t4 :: more)
    (by intro t ht
        rcases List.mem_cons.1 ht with h | h
        · rw [h]; decide
        · exact htoks t h)
  unfold executeLine
  rw [if_neg (unwords_ne_nil kwInit _ (by decide)), htok]
  simp only [List.cons_ne_nil, if_false, List.getD_cons_zero, if_true, parseFunctionDefinition,
    List.length_cons]
  rw [if_neg (by omega)]
  cases captureLoop (stream.length + 1) stream [] with
  | none => rfl
  | some p => rfl

theorem isLine_header (f t2 t3 t4 : Str) (more : List Str)
    (htoks : ∀ t ∈ f :: t2 :: t3 :: t4 :: more, IsToken t) :
    IsLine (unwords (kwInit :: f :: t2 :: t3 :: t4 :: more)) :=
  isLine_unwords _ (by
    intro t ht
    rcases List.mem_cons.1 ht with h | h
    · rw [h]; decide
    · exact htoks t h)

/-- Running a definition header: the lines the capture loop takes are bound to
the name, and the run goes on after them. -/
theorem execute_define {L : FloatLib} (f t2 t3 t4 : Str) (more : List Str) (stream : Str)
    (st : State L) (htoks : ∀ t ∈ f :: t2 :: t3 :: t4 :: more, IsToken t)
    (funcBody : List Str) (rest : Str)
    (hcap : captureLoop (stream.length + 1) stream [] = some (funcBody, rest)) :
    execute (unwords (kwInit :: f :: t2 :: t3 :: t4 :: more) ++ newline :: stream) st =
      execute rest { st with functions := mapSet st.functions f funcBody } := by
  rw [execute_line _ _ _ (isLine_header f t2 t3 t4 more htoks),
    executeLine_define f t2 t3 t4 more stream st htoks, hcap]

/-- C7: function body capture stops at the first line that contains `end`.
For a header `init f t2 t3 t4 ...` of at least five tokens, followed by the raw
lines `body`, none of which contains the text `end` (empty lines allowed), the
registry binds `f` to exactly `body`, in order:
* when the next line `term` contains `end` anywhere (as in `pending`), that
  line is dropped and the run goes on with the text `R` after it;
* the same when `term` is the last line and has no line feed;
* when the program ends after `body`, or after one more unterminated line
  `last` without `end`, every remaining line is captured and nothing more is
  executed. -/
theorem function_body_capture {L : FloatLib} (st : State L) (f t2 t3 t4 : Str)
    (more body : List Str) (term R last : Str)
    (htoks : ∀ t ∈ f :: t2 :: t3 :: t4 :: more, IsToken t)
    (hbody : ∀ b ∈ body, IsLine b ∧ ¬ "end".toList <:+: b)
    (hterm : IsLine term ∧ "end".toList <:+: term)
    (hlast : IsLine last ∧ last ≠ [] ∧ ¬ "end".toList <:+: last) :
    execute (unwords ("init".toList :: f :: t2 :: t3 :: t4 :: more) ++ newline ::
        (unlines body ++ (term ++ newline :: R))) st =
      execute R { st with functions := mapSet st.functions f body } ∧
    execute (unwords ("init".toList :: f :: t2 :: t3 :: t4 :: more) ++ newline ::
        (unlines body ++ term)) st =
      some (.done { st with functions := mapSet st.functions f body }) ∧
    execute (unwords ("init".toList :: f :: t2 :: t3 :: t4 :: more) ++ newline ::
        unlines body) st =
      some (.done { st with functions := mapSet st.functions f body }) ∧
    execute (unwords ("init".toList :: f :: t2 :: t3 :: t4 :: more) ++ newline ::
        (unlines body ++ last)) st =
      some (.done { st with functions := mapSet st.functions f (body ++ [last]) }) := by
  rw [show "init".toList = kwInit from rfl]
  rw [show "end".toList = kwEnd from rfl] at hbody hterm hlast
  refine ⟨?_, ?_, ?_, ?_⟩
  · apply execute_define f t2 t3 t4 more _ st htoks
    rw [captureLoop_body body [] _ hbody, captureLoop_term term R _ hterm.1 hterm.2]
    rfl
  · rw [execute_define f t2 t3 t4 more _ st htoks body []]
    · rfl
    · rw [captureLoop_body body [] _ hbody, captureLoop_term_last term _ hterm.1 hterm.2]
      rfl
  · rw [execute_define f t2 t3 t4 more _ st htoks body []]
    · rfl
    · have h := captureLoop_body body [] [] hbody
      rw [List.append_nil] at h
      rw [h]
      rfl
  · rw [execute_define f t2 t3 t4 more _ st htoks (body ++ [last]) []]
    · rfl
    · rw [captureLoop_body body [] _ hbody, captureLoop_last last _ hlast.1 hlast.2.1 hlast.2.2]
      rfl

theorem function_body_capture_witness :
    (∀ t ∈ "f".toList :: "a".toList :: "b".toList :: "c".toList :: [], IsToken t) ∧
    (∀ b ∈ ["foo".toList, []], IsLine b ∧ ¬ "end".toList <:+: b) ∧
    (IsLine "pending".toList ∧ "end".toList <:+: "pending".toList) ∧
    (IsLine "bar".toList ∧ "bar".toList ≠ [] ∧ ¬ "end".toList <:+: "bar".toList) ∧
    execute (unwords ("init".toList :: "f".toList :: "a".toList :: "b".toList ::
        "c".toList :: []) ++ newline ::
        (unlines ["foo".toList, []] ++ ("pending".toList ++ newline :: "58 x\n".toList)))
        (initial unitFloats []) =
      execute "58 x\n".toList { initial unitFloats [] with
        functions := mapSet (initial unitFloats []).functions "f".toList ["foo".toList, []] } :=
  ⟨by decide, by decide, by decide, by decide,
    (function_body_capture (initial unitFloats []) "f".toList "a".toList "b".toList "c".toList
      [] ["foo".toList, []] "pending".toList "58 x\n".toList "bar".toList
      (by decide) (by decide) (by decide) (by decide)).1⟩

/-! ## The registry is never read -/

theorem agreeOff_refl {L : FloatLib} (f : Str) (s : State L) : s.AgreeOff f s :=
  ⟨rfl, rfl, rfl, fun _ _ => rfl⟩

theorem agreeOff_mapSet_self {L : FloatLib} (f : Str) (s : State L) (body : List Str) :
    State.AgreeOff f { s with functions := mapSet s.functions f body } s :=
  ⟨rfl, rfl, rfl, fun _ hg => mapSet_other _ _ _ _ hg⟩

theorem printVariable_agree {L : FloatLib} (f : Str) (var : Variable L) (s1 s2 : State L)
    (h : s1.AgreeOff f s2) :
    (printVariable var s1).AgreeOff f (printVariable var s2) := by
  obtain ⟨hv, ho, hi, hf⟩ := h
  have hput : ∀ text, (putLine s1 text).AgreeOff f (putLine s2 text) := by
    intro text
    exact ⟨hv, by simp [putLine, ho], hi, hf⟩
  have hsame : s1.AgreeOff f s2 := ⟨hv, ho, hi, hf⟩
  obtain ⟨ty, val⟩ := var
  cases ty <;> cases val <;>
    first
    | exact hput _
    | exact ⟨rfl, hsame⟩

theorem executeBuiltin_agree {L : FloatLib} (f : Str) (builtin : Int) (arg : Str)
    (s1 s2 : State L) (h : s1.AgreeOff f s2) :
    (executeBuiltin builtin arg s1).AgreeOff f (executeBuiltin builtin arg s2) := by
  have hh := h
  obtain ⟨hv, ho, hi, hf⟩ := h
  unfold executeBuiltin
  rw [hv, hi]
  split_ifs
  · cases s2.vars arg with
    | none => exact ⟨hv, by simp [putLine, ho], hi, hf⟩
    | some var => exact printVariable_agree f var s1 s2 hh
  · exact ⟨by simp [hv], ho, rfl, hf⟩
  · exact ⟨hv, by simp [putLine, ho], hi, hf⟩
  · exact hh

theorem executeLine_agree {L : FloatLib} (f : Str) (line stream : Str) (s1 s2 : State L)
    (h : s1.AgreeOff f s2) :
    ∃ r1 r2, executeLine line stream s1 = some r1 ∧ executeLine line stream s2 = some r2 ∧
      r1.AgreeOff f r2 := by
  have hh := h
  obtain ⟨hv, ho, hi, hf⟩ := h
  obtain ⟨ts, hts⟩ := tokenize_total line.length line (le_refl _)
  unfold executeLine
  rw [hts]
  simp only
  split_ifs with c1 c2 c3 c4 c5 c6 c7
  · exact ⟨_, _, rfl, rfl, rfl, hh⟩
  · exact ⟨_, _, rfl, rfl, rfl, hh⟩
  · unfold parseFunctionDefinition
    split_ifs with c8
    · exact ⟨_, _, rfl, rfl, rfl, hh⟩
    · obtain ⟨b, r, hb, _⟩ := captureLoop_total (stream.length + 1) stream [] (by omega)
      rw [hb]
      refine ⟨_, _, rfl, rfl, rfl, hv, ho, hi, ?_⟩
      intro g hg
      by_cases hgn : g = ts.getD 1 []
      · simp [mapSet, hgn]
      · simp [mapSet, hgn, hf g hg]
  · cases assignValue (⟨parseDataType (ts.getD 2 []), .str []⟩ : Variable L) (ts.getD 3 []) with
    | error e => exact ⟨_, _, rfl, rfl, rfl, hh⟩
    | ok var1 => exact ⟨_, _, rfl, rfl, rfl, by simp [hv], ho, hi, hf⟩
  · exact ⟨_, _, rfl, rfl, rfl, by simp [hv], ho, hi, hf⟩
  · have hb := executeBuiltin_agree f (parseBuiltin (ts.getD 0 [])) (ts.getD 1 []) s1 s2 hh
    cases h1 : executeBuiltin (parseBuiltin (ts.getD 0 [])) (ts.getD 1 []) s1 <;>
      cases h2 : executeBuiltin (parseBuiltin (ts.getD 0 [])) (ts.getD 1 []) s2 <;>
      rw [h1, h2] at hb
    · exact ⟨_, _, rfl, rfl, rfl, hb⟩
    · exact absurd hb id
    · exact absurd hb id
    · exact ⟨_, _, rfl, rfl, hb⟩
  · exact ⟨_, _, rfl, rfl, rfl, hh⟩
  · exact ⟨_, _, rfl, rfl, rfl, hh⟩

theorem execute_agree_aux {L : FloatLib} (f : Str) : ∀ (n : Nat) (code : Str) (s1 s2 : State L),
    code.length ≤ n → s1.AgreeOff f s2 →
    ∃ o1 o2, execute code s1 = some o1 ∧ execute code s2 = some o2 ∧ o1.AgreeOff f o2
  | n, code, s1, s2, hn, h => by
    rw [execute_unfold, execute_unfold code s2]
    cases hg : getline code with
    | none => exact ⟨_, _, rfl, rfl, h⟩
    | some p =>
      obtain ⟨line, rest⟩ := p
      have hlt := getline_length hg
      obtain ⟨r1, r2, h1, h2, hr⟩ := executeLine_agree f line rest s1 s2 h
      simp only [h1, h2]
      cases r1 with
      | fatal e1 t1 =>
        cases r2 with
        | fatal e2 t2 => exact ⟨_, _, rfl, rfl, hr⟩
        | next q2 t2 => exact absurd hr id
      | next q1 t1 =>
        cases r2 with
        | fatal e2 t2 => exact absurd hr id
        | next q2 t2 =>
          obtain ⟨hq, ht⟩ := hr
          subst hq
          have hlen := executeLine_length h1
          cases n with
          | zero => omega
          | succ m => exact execute_agree_aux f m q1 t1 t2 (by omega) ht

/-- Two runs of the same text from states that agree but for the registry
entry of `f` end alike. -/
theorem execute_agree {L : FloatLib} (f : Str) (code : Str) (s1 s2 : State L)
    (h : s1.AgreeOff f s2) :
    ∃ o1 o2, execute code s1 = some o1 ∧ execute code s2 = some o2 ∧ o1.AgreeOff f o2 :=
  execute_agree_aux f code.length code s1 s2 (le_refl _) h

/-- C8: captured function bodies are never executed.  From every state, for a
header `init f t2 t3 t4 ...` of at least five tokens, body lines none of which
contains `end`, a terminator line that contains `end` and any program text `R`
after it, the run of header, body, terminator and `R` and the run of `R` alone
both come to an end, and end alike: both normally or both by the same
exception, with the same variable store, the same output and the same
remaining input; their function registries agree on every name but `f`. -/
theorem captured_body_not_executed {L : FloatLib} (st : State L) (f t2 t3 t4 : Str)
    (more body : List Str) (term R : Str)
    (htoks : ∀ t ∈ f :: t2 :: t3 :: t4 :: more, IsToken t)
    (hbody : ∀ b ∈ body, IsLine b ∧ ¬ "end".toList <:+: b)
    (hterm : IsLine term ∧ "end".toList <:+: term) :
    ∃ o1 o2,
      execute (unwords ("init".toList :: f :: t2 :: t3 :: t4 :: more) ++ newline ::
        (unlines body ++ (term ++ newline :: R))) st = some o1 ∧
      execute R st = some o2 ∧ o1.AgreeOff f o2 := by
  rw [show "init".toList = kwInit from rfl]
  rw [show "end".toList = kwEnd from rfl] at hbody hterm
  have hcap : captureLoop ((unlines body ++ (term ++ newline :: R)).length + 1)
      (unlines body ++ (term ++ newline :: R)) [] = some (body, R) := by
    rw [captureLoop_body body [] _ hbody, captureLoop_term term R _ hterm.1 hterm.2]
    rfl
  rw [execute_define f t2 t3 t4 more _ st htoks body R hcap]
  exact execute_agree f R _ st (agreeOff_mapSet_self f st body)

theorem captured_body_not_executed_witness :
    (∀ t ∈ "f".toList :: "a".toList :: "b".toList :: "c".toList :: [], IsToken t) ∧
    (∀ b ∈ ["58 hidden".toList], IsLine b ∧ ¬ "end".toList <:+: b) ∧
    (IsLine "end".toList ∧ "end".toList <:+: "end".toList) ∧
    ∃ o1 o2,
      execute (unwords ("init".toList :: "f".toList :: "a".toList :: "b".toList ::
        "c".toList :: []) ++ newline ::
        (unlines ["58 hidden".toList] ++ ("end".toList ++ newline :: "58 shown\n".toList)))
        (initial unitFloats []) = some o1 ∧
      execute "58 shown\n".toList (initial unitFloats []) = some o2 ∧
      o1.AgreeOff "f".toList o2 :=
  ⟨by decide, by decide, by decide,
    captured_body_not_executed (initial unitFloats []) "f".toList "a".toList "b".toList
      "c".toList [] ["58 hidden".toList] "end".toList "58 shown\n".toList
      (by decide) (by decide) (by decide)⟩

/-! ## Opcodes -/

theorem executeLine_unwords {L : FloatLib} (t0 : Str) (ts : List Str) (stream : Str)
    (st : State L) (htoks : ∀ t ∈ t0 :: ts, IsToken t) :
    executeLine (unwords (t0 :: ts)) stream st =
      if t0 = kwInit then
        match parseFunctionDefinition stream (t0 :: ts) st with
        | none => none
        | some (rest, st1) => some (.next rest st1)
      else if 3 ≤ (t0 :: ts).length ∧ (t0 :: ts).getD 1 [] = kwAssign then
        if 3 < (t0 :: ts).length then
          match assignValue (⟨parseDataType ((t0 :: ts).getD 2 []), .str []⟩ : Variable L)
              ((t0 :: ts).getD 3 []) with
          | .ok var1 => some (.next stream { st with vars := mapSet st.vars t0 var1 })
          | .error e => some (.fatal e st)
        else
          some (.next stream { st with
            vars := mapSet st.vars t0 ⟨parseDataType ((t0 :: ts).getD 2 []), .str []⟩ })
      else if 2 ≤ (t0 :: ts).length then
        if parseBuiltin t0 ≠ -1 then
          match executeBuiltin (parseBuiltin t0) ((t0 :: ts).getD 1 []) st with
          | .done st1 => some (.next stream st1)
          | .fatal e st1 => some (.fatal e st1)
        else some (.next stream st)
      else some (.next stream st) := by
  have htok := tokenize_unwords (t0 :: ts) htoks
  unfold executeLine
  rw [if_neg (unwords_ne_nil t0 ts (htoks t0 (by simp))), htok]
  simp only [List.cons_ne_nil, if_false, List.getD_cons_zero]

theorem executeLine_call {L : FloatLib} (t0 t1 : Str) (more : List Str) (stream : Str)
    (st : State L) (htoks : ∀ t ∈ t0 :: t1 :: more, IsToken t) (hinit : t0 ≠ kwInit)
    (hna : ¬ (more ≠ [] ∧ t1 = kwAssign)) :
    executeLine (unwords (t0 :: t1 :: more)) stream st =
      if parseBuiltin t0 ≠ -1 then
        match executeBuiltin (parseBuiltin t0) t1 st with
        | .done st1 => some (.next stream st1)
        | .fatal e st1 => some (.fatal e st1)
      else some (.next stream st) := by
  have hcond : ¬ (3 ≤ (t0 :: t1 :: more).length ∧ (t0 :: t1 :: more).getD 1 [] = kwAssign) := by
    rintro ⟨h1, h2⟩
    apply hna
    refine ⟨?_, by simpa using h2⟩
    rintro rfl
    simp at h1
  rw [executeLine_unwords t0 (t1 :: more) stream st htoks, if_neg hinit, if_neg hcond,
    if_pos (by simp)]
  rfl

theorem toDigits_isToken (k : Nat) : IsToken (Nat.toDigits 10 k) := by
  obtain ⟨h1, _, h3⟩ := toDigits_spec k
  exact ⟨h3, fun c hc => isdigit_not_space (h1 c hc)⟩

theorem digits_ne_init (t : Str) (hd : ∀ c ∈ t, isdigit c = true) : t ≠ kwInit := by
  rintro rfl
  exact absurd (hd 'i' (by simp [kwInit])) (by decide)

theorem stoi_digits_large (ds : Str) (hne : ds ≠ []) (hd : ∀ c ∈ ds, isdigit c = true)
    (hr : 2147483647 < (digitsVal ds : Int)) : stoi ds = .error .out_of_range := by
  cases ds with
  | nil => exact absurd rfl hne
  | cons a as =>
    have ha : isdigit a = true := hd a (by simp)
    have hsp := isdigit_not_space ha
    have hsg := isdigit_not_sign ha
    have htw : (a :: as).takeWhile isdigit = a :: as := List.takeWhile_eq_self_iff.2 hd
    have hdw : (a :: as).dropWhile isspace = a :: as :=
      List.dropWhile_cons_of_neg (by simp [hsp])
    have hrange : ((digitsVal (a :: as) : Int) < -2147483648 ∨
        2147483647 < (digitsVal (a :: as) : Int)) := Or.inr hr
    unfold stoi
    simp only [hdw, List.head?_cons, Option.some.injEq, hsg.1, hsg.2, or_self, if_false, htw,
      decide_False, Bool.false_eq_true, hrange, if_true]
    rw [if_neg (by simp)]

theorem parseBuiltin_toDigits (k : Nat) :
    parseBuiltin (Nat.toDigits 10 k) = if k ≤ 2147483647 then (k : Int) else -1 := by
  obtain ⟨h1, h2, h3⟩ := toDigits_spec k
  unfold parseBuiltin
  split_ifs with hk
  · rw [stoi_digits _ h3 h1 (by rw [h2]; omega), h2]
  · rw [stoi_digits_large _ h3 h1 (by rw [h2]; omega)]

/-- C11: unknown opcodes are no-ops.  For every natural number `k` outside
58, 67, 24, 32, 15, 45, 40, 0 (as large as one likes), written in decimal, and
every argument token `a`, the line `<k> a` changes nothing in any state: the
run goes on with the rest of the program in the very same state, so nothing is
written, nothing is read from the input, and the variable store and the
function registry are as before. -/
theorem unknown_opcode_noop {L : FloatLib} (st : State L) (k : Nat) (a rest : Str)
    (hk : k ∉ [58, 67, 24, 32, 15, 45, 40, 0]) (ha : IsToken a) :
    execute (unwords [Nat.toDigits 10 k, a] ++ newline :: rest) st = execute rest st := by
  obtain ⟨h1, _, _⟩ := toDigits_spec k
  have hop := toDigits_isToken k
  have htoks : ∀ t ∈ [Nat.toDigits 10 k, a], IsToken t := by
    simp only [List.mem_cons, List.mem_singleton, List.not_mem_nil, or_false]
    rintro t (h | h) <;> rw [h] <;> assumption
  simp only [List.mem_cons, List.mem_singleton, List.not_mem_nil, or_false, not_or] at hk
  rw [execute_line _ _ _ (isLine_unwords _ htoks),
    executeLine_builtin _ a _ _ hop (digits_ne_init _ h1) ha, parseBuiltin_toDigits]
  by_cases hr : k ≤ 2147483647
  · have hne : (k : Int) ≠ -1 := by omega
    have e58 : ¬ ((k : Int) = 58) := by omega
    have e67 : ¬ ((k : Int) = 67) := by omega
    have earith : ¬ ((k : Int) = 24 ∨ (k : Int) = 32 ∨ (k : Int) = 15 ∨ (k : Int) = 45 ∨
        (k : Int) = 40 ∨ (k : Int) = 0) := by omega
    simp only [hr, if_true, hne, ne_eq, not_false_eq_true, executeBuiltin, e58, e67, earith,
      if_false]
  · simp only [hr, if_false, ne_eq, not_true_eq_false]

theorem unknown_opcode_noop_witness :
    999 ∉ [58, 67, 24, 32, 15, 45, 40, 0] ∧ IsToken "x".toList ∧
    Nat.toDigits 10 999 = "999".toList ∧
    execute (unwords [Nat.toDigits 10 999, "x".toList] ++ newline :: [])
        (initial unitFloats []) =
      execute [] (initial unitFloats []) :=
  ⟨by decide, by decide, by decide,
    unknown_opcode_noop (initial unitFloats []) 999 "x".toList [] (by decide) (by decide)⟩

theorem parseBuiltin_of_no_prefix (t : Str) (ht : IsToken t) (hbad : ¬ HasIntPrefix t) :
    parseBuiltin t = -1 := by
  unfold parseBuiltin
  rw [stoi_token t ht]
  unfold HasIntPrefix at hbad
  by_cases h1 : (stripSign t).takeWhile isdigit = []
  · rw [if_pos h1]
  · have h2 : ¬ InIntRange (signedVal t ((stripSign t).takeWhile isdigit)) :=
      fun h => hbad ⟨h1, h⟩
    rw [if_neg h1, if_neg h2]

/-- C12, the claim as written fails: in the line `58abc hello` the first token
is not a run of digits, yet the line is not ignored; `stoi` reads the leading
`58`, and the print builtin writes `hello`. -/
theorem opcode_with_trailing_text_runs :
    IsToken "58abc".toList ∧ ¬ IsDigits "58abc".toList ∧ "58abc".toList ≠ "init".toList ∧
    execute (unwords ["58abc".toList, "hello".toList] ++ newline :: [])
        (initial unitFloats []) =
      some (.done { initial unitFloats [] with cout := "hello".toList ++ [newline] }) := by
  refine ⟨by decide, by decide, by decide, ?_⟩
  have hl : IsLine (unwords ["58abc".toList, "hello".toList]) := by decide
  have hp : parseBuiltin "58abc".toList = 58 := by decide
  have h := execute_line (unwords ["58abc".toList, "hello".toList]) []
    (initial unitFloats []) hl
  rw [executeLine_builtin "58abc".toList "hello".toList [] (initial unitFloats [])
    (by decide) (by decide) (by decide), hp, if_pos (by decide)] at h
  exact h

/-- C12, amended: a line of at least two tokens that is neither a definition
(first token `init`) nor an assignment (three or more tokens, the second one
`=`) is ignored when its first token does not start like a decimal integer,
that is, when after an optional sign there is no digit, or the run of digits
denotes a value outside the 32-bit signed range.  The run goes on with the rest
of the program in the very same state: nothing is written, nothing is read,
and the variable store and the function registry are as before. -/
theorem opcode_parse_failure_ignored {L : FloatLib} (st : State L) (t0 t1 : Str)
    (more : List Str) (rest : Str)
    (htoks : ∀ t ∈ t0 :: t1 :: more, IsToken t) (hinit : t0 ≠ "init".toList)
    (hna : ¬ (more ≠ [] ∧ t1 = "=".toList)) (hbad : ¬ HasIntPrefix t0) :
    execute (unwords (t0 :: t1 :: more) ++ newline :: rest) st = execute rest st := by
  rw [execute_line _ _ _ (isLine_unwords _ htoks),
    executeLine_call t0 t1 more _ st htoks hinit hna,
    parseBuiltin_of_no_prefix t0 (htoks t0 (by simp)) hbad]
  rfl

theorem opcode_parse_failure_ignored_witness :
    (∀ t ∈ "print".toList :: "x".toList :: ["y".toList], IsToken t) ∧
    "print".toList ≠ "init".toList ∧
    ¬ (["y".toList] ≠ [] ∧ "x".toList = "=".toList) ∧ ¬ HasIntPrefix "print".toList ∧
    execute (unwords ("print".toList :: "x".toList :: ["y".toList]) ++ newline :: [])
        (initial unitFloats []) =
      execute [] (initial unitFloats []) :=
  ⟨by decide, by decide, by decide, by decide,
    opcode_parse_failure_ignored (initial unitFloats []) "print".toList "x".toList
      ["y".toList] [] (by decide) (by decide) (by decide) (by decide)⟩

/-! ## Re-assignment -/

theorem mapSet_mapSet {α : Type} (m : Str → Option α) (key : Str) (v w : α) :
    mapSet (mapSet m key v) key w = mapSet m key w := by
  funext k
  by_cases h : k = key <;> simp [mapSet, h]

theorem execute_assign {L : FloatLib} (n m v rest : Str) (st : State L) (var1 : Variable L)
    (hn : IsToken n) (hinit : n ≠ kwInit) (hm : IsToken m) (hv : IsToken v)
    (hval : assignValue (⟨parseDataType m, .str []⟩ : Variable L) v = .ok var1) :
    execute (unwords [n, kwAssign, m, v] ++ newline :: rest) st =
      execute rest { st with vars := mapSet st.vars n var1 } := by
  have hl : IsLine (unwords [n, kwAssign, m, v]) := isLine_unwords _
    (by simp only [List.mem_cons, List.mem_singleton, List.not_mem_nil, or_false]
        rintro t (h | h | h | h) <;> rw [h] <;> first | assumption | exact isToken_kwAssign)
  rw [execute_line _ _ _ hl, executeLine_assign n m v _ st hn hinit hm hv, hval]

/-- C13: last write wins.  For every name token `x` other than `init` and two
assignment lines `x = T1 v1` and `x = T2 v2` whose coercions both succeed (to
`var1` and `var2`), running the two lines one after the other leaves the same
state as running the second alone; in it `x` is bound to `var2`, the value that
`T2` and `v2` alone determine, and every other name is bound as before. -/
theorem last_write_wins {L : FloatLib} (st : State L) (x T1 v1 T2 v2 rest : Str)
    (var1 var2 : Variable L)
    (hx : IsToken x) (hinit : x ≠ "init".toList)
    (hT1 : IsToken T1) (hv1 : IsToken v1) (hT2 : IsToken T2) (hv2 : IsToken v2)
    (h1 : assignValue (⟨parseDataType T1, .str []⟩ : Variable L) v1 = .ok var1)
    (h2 : assignValue (⟨parseDataType T2, .str []⟩ : Variable L) v2 = .ok var2) :
    execute (unwords [x, "=".toList, T1, v1] ++ newline ::
        (unwords [x, "=".toList, T2, v2] ++ newline :: rest)) st =
      execute rest { st with vars := mapSet st.vars x var2 } ∧
    execute (unwords [x, "=".toList, T2, v2] ++ newline :: rest) st =
      execute rest { st with vars := mapSet st.vars x var2 } ∧
    mapSet st.vars x var2 x = some var2 ∧
    ∀ y, y ≠ x → mapSet st.vars x var2 y = st.vars y := by
  rw [show "=".toList = kwAssign from rfl]
  refine ⟨?_, ?_, mapSet_self _ _ _, fun y hy => mapSet_other _ _ _ _ hy⟩
  · rw [execute_assign x T1 v1 _ st var1 hx hinit hT1 hv1 h1,
      execute_assign x T2 v2 _ _ var2 hx hinit hT2 hv2 h2]
    simp only [mapSet_mapSet]
  · rw [execute_assign x T2 v2 _ st var2 hx hinit hT2 hv2 h2]

theorem last_write_wins_witness :
    IsToken "x".toList ∧ "x".toList ≠ "init".toList ∧
    IsToken "<<-".toList ∧ IsToken "42".toList ∧ IsToken ">>+>".toList ∧ IsToken "hi".toList ∧
    assignValue (⟨parseDataType "<<-".toList, .str []⟩ : Variable unitFloats) "42".toList
      = .ok ⟨.INTEGER, .int 42⟩ ∧
    assignValue (⟨parseDataType ">>+>".toList, .str []⟩ : Variable unitFloats) "hi".toList
      = .ok ⟨.STRING, .str "hi".toList⟩ ∧
    execute (unwords ["x".toList, "=".toList, "<<-".toList, "42".toList] ++ newline ::
        (unwords ["x".toList, "=".toList, ">>+>".toList, "hi".toList] ++ newline :: []))
        (initial unitFloats []) =
      execute [] { initial unitFloats [] with
        vars := mapSet (initial unitFloats []).vars "x".toList
          ⟨.STRING, .str "hi".toList⟩ } :=
  ⟨by decide, by decide, by decide, by decide, by decide, by decide, rfl, rfl,
    (last_write_wins (initial unitFloats []) "x".toList "<<-".toList "42".toList
      ">>+>".toList "hi".toList [] ⟨.INTEGER, .int 42⟩ ⟨.STRING, .str "hi".toList⟩
      (by decide) (by decide) (by decide) (by decide) (by decide) (by decide) rfl rfl).1⟩

/-! ## The null tag -/

theorem parseDataType_null (m : Str)
    (hm : m ∉ [mkString, mkInteger, mkFloat, mkDouble, mkTrue, mkFalse, mkChar]) :
    parseDataType m = .NULLTYPE := by
  simp only [List.mem_cons, List.mem_singleton, List.not_mem_nil, or_false, not_or] at hm
  obtain ⟨h1, h2, h3, h4, h5, h6, h7⟩ := hm
  unfold parseDataType
  simp only [h1, h2, h3, h4, h5, h6, h7, if_false, ite_self]

theorem execute_declare {L : FloatLib} (n m rest : Str) (st : State L)
    (hn : IsToken n) (hinit : n ≠ kwInit) (hm : IsToken m) :
    execute (unwords [n, kwAssign, m] ++ newline :: rest) st =
      execute rest { st with vars := mapSet st.vars n ⟨parseDataType m, .str []⟩ } := by
  have hl : IsLine (unwords [n, kwAssign, m]) := isLine_unwords _
    (by simp only [List.mem_cons, List.mem_singleton, List.not_mem_nil, or_false]
        rintro t (h | h | h) <;> rw [h] <;> first | assumption | exact isToken_kwAssign)
  rw [execute_line _ _ _ hl, executeLine_declare n m _ st hn hinit hm]

theorem execute_print_bound {L : FloatLib} (n rest : Str) (st : State L) (var : Variable L)
    (hn : IsToken n) (hb : st.vars n = some var) :
    execute (unwords [opPrint, n] ++ newline :: rest) st =
      match printVariable var st with
      | .done st1 => execute rest st1
      | .fatal e st1 => some (.fatal e st1) := by
  have hl : IsLine (unwords [opPrint, n]) := isLine_unwords _
    (by simp only [List.mem_cons, List.mem_singleton, List.not_mem_nil, or_false]
        rintro t (h | h) <;> rw [h] <;> first | assumption | exact isToken_opPrint)
  rw [execute_line _ _ _ hl, executeLine_builtin opPrint n _ _ isToken_opPrint (by decide) hn,
    parseBuiltin_opPrint, if_pos (by decide)]
  simp only [executeBuiltin, if_true, hb]
  exact outcome_of_print rest (printVariable var st)

/-- C14: unrecognized and Null type markers degrade silently.  For every
marker token `m` that is none of the seven markers of the other tags (so `_-_`
or a token outside the table) and every literal token `v`, numeric or not, the
lines `n = m v` and `58 n`, and likewise the lines `n = m` and `58 n`, run to
completion without failure: `n` is bound with the Null tag and the output
grows by exactly the one line `_-_`. -/
theorem null_marker_degrades {L : FloatLib} (st : State L) (n m v : Str)
    (hn : IsToken n) (hinit : n ≠ "init".toList) (hmt : IsToken m) (hv : IsToken v)
    (hm : m ∉ [">>+>".toList, "<<-".toList, ">>+>>".toList, ">><<++--__".toList,
      "<<>>".toList, ">>".toList, "_+_".toList]) :
    execute (unlines [unwords [n, "=".toList, m, v], unwords ["58".toList, n]]) st =
      some (.done { st with vars := mapSet st.vars n ⟨.NULLTYPE, .str []⟩,
                            cout := st.cout ++ "_-_".toList ++ [newline] }) ∧
    execute (unlines [unwords [n, "=".toList, m], unwords ["58".toList, n]]) st =
      some (.done { st with vars := mapSet st.vars n ⟨.NULLTYPE, .str []⟩,
                            cout := st.cout ++ "_-_".toList ++ [newline] }) := by
  have hp : parseDataType m = .NULLTYPE := parseDataType_null m hm
  have hval : assignValue (⟨parseDataType m, .str []⟩ : Variable L) v
      = .ok ⟨.NULLTYPE, .str []⟩ := by
    rw [hp]; rfl
  constructor
  · exact execute_assign_print n m v st ⟨.NULLTYPE, .str []⟩ hn hinit hmt hv hval
  · show execute (unwords [n, kwAssign, m] ++ newline :: (unwords [opPrint, n] ++ newline :: []))
      st = _
    rw [execute_declare n m _ st hn hinit hmt, hp,
      execute_print_bound n [] _ ⟨.NULLTYPE, .str []⟩ hn (mapSet_self _ _ _)]
    rfl

theorem null_marker_degrades_witness :
    IsToken "x".toList ∧ "x".toList ≠ "init".toList ∧ IsToken "??".toList ∧
    IsToken "abc".toList ∧
    "??".toList ∉ [">>+>".toList, "<<-".toList, ">>+>>".toList, ">><<++--__".toList,
      "<<>>".toList, ">>".toList, "_+_".toList] ∧
    execute (unlines [unwords ["x".toList, "=".toList, "??".toList, "abc".toList],
        unwords ["58".toList, "x".toList]]) (initial unitFloats []) =
      some (.done { initial unitFloats [] with
        vars := mapSet (initial unitFloats []).vars "x".toList ⟨.NULLTYPE, .str []⟩,
        cout := (initial unitFloats []).cout ++ "_-_".toList ++ [newline] }) :=
  ⟨by decide, by decide, by decide, by decide, by decide,
    (null_marker_degrades (initial unitFloats []) "x".toList "??".toList "abc".toList
      (by decide) (by decide) (by decide) (by decide) (by decide)).1⟩

/-! ## The input builtin -/

theorem isToken_opInput : IsToken opInput := by decide

theorem parseBuiltin_opInput : parseBuiltin opInput = 67 := by decide

theorem execute_input {L : FloatLib} (name rest : Str) (st : State L) (hn : IsToken name) :
    execute (unwords [opInput, name] ++ newline :: rest) st =
      execute rest { st with
        cin := ((getline st.cin).getD ([], [])).2,
        vars := mapSet st.vars name ⟨.STRING, .str ((getline st.cin).getD ([], [])).1⟩ } := by
  have hl : IsLine (unwords [opInput, name]) := isLine_unwords _
    (by simp only [List.mem_cons, List.mem_singleton, List.not_mem_nil, or_false]
        rintro t (h | h) <;> rw [h] <;> first | assumption | exact isToken_opInput)
  rw [execute_line _ _ _ hl, executeLine_builtin opInput name _ _ isToken_opInput (by decide) hn,
    parseBuiltin_opInput, if_pos (by decide)]
  rfl

/-- C15: the input builtin.  With the standard input holding the lines
`line :: more` (`line` may be empty or contain white space), the line
`67 name` consumes exactly `line` and its line feed, writes nothing, binds
`name` to the String `line` whatever `name` was bound to before, and leaves
every other binding as it was; a print `58 name` right after it appends to the
output exactly the one line `line`. -/
theorem input_builtin {L : FloatLib} (st : State L) (name line rest : Str)
    (more : List Str) (hn : IsToken name) (hline : IsLine line)
    (hcin : st.cin = unlines (line :: more)) :
    execute (unwords ["67".toList, name] ++ newline :: rest) st =
      execute rest { st with cin := unlines more,
                             vars := mapSet st.vars name ⟨.STRING, .str line⟩ } ∧
    execute (unwords ["67".toList, name] ++ newline ::
        (unwords ["58".toList, name] ++ newline :: rest)) st =
      execute rest { st with cin := unlines more,
                             vars := mapSet st.vars name ⟨.STRING, .str line⟩,
                             cout := st.cout ++ line ++ [newline] } ∧
    mapSet st.vars name (⟨.STRING, .str line⟩ : Variable L) name = some ⟨.STRING, .str line⟩ ∧
    ∀ y, y ≠ name →
      mapSet st.vars name (⟨.STRING, .str line⟩ : Variable L) y = st.vars y := by
  have hg : getline st.cin = some (line, unlines more) := by
    rw [hcin]; exact getline_line line (unlines more) hline
  rw [show "67".toList = opInput from rfl, show "58".toList = opPrint from rfl]
  refine ⟨?_, ?_, mapSet_self _ _ _, fun y hy => mapSet_other _ _ _ _ hy⟩
  · rw [execute_input name rest st hn, hg]
    rfl
  · rw [execute_input name _ st hn, hg]
    simp only [Option.getD_some]
    rw [execute_print_bound name rest _ ⟨.STRING, .str line⟩ hn (mapSet_self _ _ _)]
    rfl

theorem input_builtin_witness :
    IsToken "name".toList ∧ IsLine "Ada  Lovelace".toList ∧
    (initial unitFloats (unlines ["Ada  Lovelace".toList, "next".toList])).cin =
      unlines ("Ada  Lovelace".toList :: ["next".toList]) ∧
    execute (unwords ["67".toList, "name".toList] ++ newline ::
        (unwords ["58".toList, "name".toList] ++ newline :: []))
        (initial unitFloats (unlines ["Ada  Lovelace".toList, "next".toList])) =
      execute [] { initial unitFloats (unlines ["Ada  Lovelace".toList, "next".toList]) with
        cin := unlines ["next".toList],
        vars := mapSet (initial unitFloats
            (unlines ["Ada  Lovelace".toList, "next".toList])).vars "name".toList
          ⟨.STRING, .str "Ada  Lovelace".toList⟩,
        cout := (initial unitFloats (unlines ["Ada  Lovelace".toList, "next".toList])).cout
          ++ "Ada  Lovelace".toList ++ [newline] } :=
  ⟨by decide, by decide, rfl,
    (input_builtin (initial unitFloats (unlines ["Ada  Lovelace".toList, "next".toList]))
      "name".toList "Ada  Lovelace".toList [] ["next".toList] (by decide) (by decide) rfl).2.1⟩

/-! ## The tokenizer -/

theorem wordsOf_nil : wordsOf [] = [] := by
  simp [wordsOf]

theorem wordsOf_space (c : Char) (s : Str) (hc : isspace c = true) :
    wordsOf (c :: s) = wordsOf s := by
  simp [wordsOf, hc]

theorem wordsOf_token (t : Str) (ht : IsToken t) : wordsOf t = [t] := by
  have h : ∀ x ∈ t, ¬ isspace x = true := by
    intro x hx; simp [ht.2 x hx]
  unfold wordsOf
  rw [List.splitOnP_eq_single isspace t h]
  simp [ht.1]

theorem wordsOf_token_sep (t : Str) (sep : Char) (rest : Str) (ht : IsToken t)
    (hsep : isspace sep = true) : wordsOf (t ++ sep :: rest) = t :: wordsOf rest := by
  have h : ∀ x ∈ t, ¬ isspace x = true := by
    intro x hx; simp [ht.2 x hx]
  unfold wordsOf
  rw [List.splitOnP_first isspace t h sep hsep rest]
  simp [ht.1]

theorem tokenize_token_sep (t : Str) (sep : Char) (rest : Str) (ht : IsToken t)
    (hsep : isspace sep = true) :
    tokenize (t ++ sep :: rest) = (tokenize rest).map (fun ts => t :: ts) := by
  have h := extractToken_token t (sep :: rest) ht (by simpa using hsep)
  rw [tokenize_unfold, h]
  simp only
  rw [tokenize_space _ _ hsep]

theorem takeWhile_isToken (c : Char) (cs : Str) (hc : isspace c = false) :
    IsToken ((c :: cs).takeWhile (fun x => !isspace x)) := by
  constructor
  · rw [List.takeWhile_cons_of_pos (by simp [hc])]
    simp
  · intro x hx
    have := List.mem_takeWhile_imp hx
    simpa using this

theorem tokenize_wordsOf_aux : ∀ (n : Nat) (line : Str), line.length ≤ n →
    tokenize line = some (wordsOf line) ∧ (∀ t ∈ wordsOf line, IsToken t) ∧
      (wordsOf line = [] ↔ ∀ c ∈ line, isspace c = true)
  | _, [], _ => by
    rw [wordsOf_nil]
    exact ⟨rfl, by simp, by simp⟩
  | 0, _ :: _, h => by simp at h
  | n + 1, c :: cs, hlen => by
    have hlen1 : cs.length ≤ n := by simpa using hlen
    by_cases hc : isspace c = true
    · obtain ⟨h1, h2, h3⟩ := tokenize_wordsOf_aux n cs hlen1
      rw [tokenize_space c cs hc, wordsOf_space c cs hc]
      refine ⟨h1, h2, ?_⟩
      rw [h3]
      simp [hc]
    · have hcf : isspace c = false := by simpa using hc
      have ht := takeWhile_isToken c cs hcf
      have hsplit : (c :: cs).takeWhile (fun x => !isspace x) ++
          (c :: cs).dropWhile (fun x => !isspace x) = c :: cs :=
        List.takeWhile_append_dropWhile _ _
      have hnot : ¬ ∀ x ∈ c :: cs, isspace x = true := by
        intro hall
        exact hc (hall c (by simp))
      cases hr : (c :: cs).dropWhile (fun x => !isspace x) with
      | nil =>
        rw [hr, List.append_nil] at hsplit
        rw [hsplit] at ht
        rw [tokenize_token _ ht, wordsOf_token _ ht]
        refine ⟨rfl, ?_, ⟨fun h => absurd h (List.cons_ne_nil _ _), fun h => absurd h hnot⟩⟩
        intro t htm
        rw [List.mem_singleton.1 htm]
        exact ht
      | cons sep rest =>
        have hsep : isspace sep = true := by
          have := dropWhile_head_false (fun x => !isspace x) (c :: cs) sep rest hr
          simpa using this
        have hrl : rest.length ≤ n := by
          have h1 : ((c :: cs).dropWhile (fun x => !isspace x)).length ≤ (c :: cs).length :=
            (List.dropWhile_sublist _).length_le
          rw [hr] at h1
          simp only [List.length_cons] at h1 hlen
          omega
        obtain ⟨h1, h2, _⟩ := tokenize_wordsOf_aux n rest hrl
        rw [hr] at hsplit
        rw [← hsplit, tokenize_token_sep _ sep rest ht hsep, wordsOf_token_sep _ sep rest ht hsep,
          h1]
        refine ⟨rfl, ?_, ?_⟩
        · intro t htm
          rcases List.mem_cons.1 htm with h | h
          · rw [h]; exact ht
          · exact h2 t h
        · rw [hsplit]
          exact ⟨fun h => absurd h (List.cons_ne_nil _ _), fun h => absurd h hnot⟩

/-- C16: tokenizer correctness.  For every line, `tokenize` comes to an end and
returns, in order, exactly the maximal runs of characters other than white
space (`wordsOf`); every token is non-empty and free of white space; the result
is empty exactly when the line is empty or all white space; and tokenizing the
tokens joined by single spaces gives the same tokens again. -/
theorem tokenize_correct (line : Str) :
    tokenize line = some (wordsOf line) ∧
    (∀ t ∈ wordsOf line, IsToken t) ∧
    (wordsOf line = [] ↔ ∀ c ∈ line, isspace c = true) ∧
    tokenize (unwords (wordsOf line)) = some (wordsOf line) := by
  obtain ⟨h1, h2, h3⟩ := tokenize_wordsOf_aux line.length line (le_refl _)
  exact ⟨h1, h2, h3, tokenize_unwords _ h2⟩

/-! ## The statement classifier -/

theorem parseFunctionDefinition_frame {L : FloatLib} (stream : Str) (tokens : List Str)
    (st : State L) :
    ∃ rest st1, parseFunctionDefinition stream tokens st = some (rest, st1) ∧
      st1.vars = st.vars ∧ st1.cout = st.cout ∧ st1.cin = st.cin := by
  unfold parseFunctionDefinition
  split
  · exact ⟨stream, st, rfl, rfl, rfl, rfl⟩
  · obtain ⟨b, r, hb, _⟩ := captureLoop_total (stream.length + 1) stream [] (by omega)
    rw [hb]
    exact ⟨r, _, rfl, rfl, rfl, rfl⟩

/-- C17: classifier precedence, definition before assignment before builtin.
(a) A line of at least three tokens whose second token is `=` and whose first
token `n` is not `init` is handled as an assignment to `n`, whatever `n` is,
an opcode numeral such as `58` or `24` included: the three-token line declares
the variable `n`; with a literal `v` (and any further tokens) the coerced value
is bound or the coercion is fatal; neither form prints.
(b) A line whose first token is `init` is handled by the definition capture
only: it is never fatal and leaves the variable store and both standard
streams as they were.
(c) In particular the four-token line `init = m v` changes nothing at all. -/
theorem classifier_precedence {L : FloatLib} (st : State L) (n m v : Str)
    (more tail : List Str) (stream : Str)
    (hn : IsToken n) (hinit : n ≠ "init".toList) (hm : IsToken m) (hv : IsToken v)
    (hmore : ∀ t ∈ more, IsToken t) (htail : ∀ t ∈ tail, IsToken t) :
    executeLine (unwords [n, "=".toList, m]) stream st =
      some (.next stream { st with vars := mapSet st.vars n ⟨parseDataType m, .str []⟩ }) ∧
    (executeLine (unwords (n :: "=".toList :: m :: v :: more)) stream st =
      match assignValue (⟨parseDataType m, .str []⟩ : Variable L) v with
      | .ok var1 => some (.next stream { st with vars := mapSet st.vars n var1 })
      | .error e => some (.fatal e st)) ∧
    (∃ rest1 st1, executeLine (unwords ("init".toList :: tail)) stream st =
        some (.next rest1 st1) ∧
      st1.vars = st.vars ∧ st1.cout = st.cout ∧ st1.cin = st.cin) ∧
    executeLine (unwords ["init".toList, "=".toList, m, v]) stream st =
      some (.next stream st) := by
  have hinit1 : n ≠ kwInit := hinit
  rw [show "init".toList = kwInit from rfl, show "=".toList = kwAssign from rfl]
  have hk : IsToken kwInit := by decide
  refine ⟨executeLine_declare n m stream st hn hinit1 hm, ?_, ?_, ?_⟩
  · have htoks : ∀ t ∈ n :: kwAssign :: m :: v :: more, IsToken t := by
      intro t ht
      simp only [List.mem_cons] at ht
      rcases ht with h | h | h | h | h
      · rw [h]; exact hn
      · rw [h]; exact isToken_kwAssign
      · rw [h]; exact hm
      · rw [h]; exact hv
      · exact hmore t h
    rw [executeLine_unwords n _ stream st htoks, if_neg hinit1,
      if_pos ⟨by simp, by simp⟩, if_pos (by simp)]
    rfl
  · have htoks : ∀ t ∈ kwInit :: tail, IsToken t := by
      intro t ht
      rcases List.mem_cons.1 ht with h | h
      · rw [h]; exact hk
      · exact htail t h
    obtain ⟨r, s1, h1, h2, h3, h4⟩ := parseFunctionDefinition_frame stream (kwInit :: tail) st
    rw [executeLine_unwords kwInit _ stream st htoks, if_pos rfl, h1]
    exact ⟨r, s1, rfl, h2, h3, h4⟩
  · have htoks : ∀ t ∈ [kwInit, kwAssign, m, v], IsToken t := by
      intro t ht
      simp only [List.mem_cons, List.mem_singleton, List.not_mem_nil, or_false] at ht
      rcases ht with h | h | h | h <;> rw [h]
      · exact hk
      · exact isToken_kwAssign
      · exact hm
      · exact hv
    rw [executeLine_unwords kwInit _ stream st htoks, if_pos rfl]
    rfl

theorem classifier_precedence_witness :
    IsToken "58".toList ∧ "58".toList ≠ "init".toList ∧ IsToken ">>+>".toList ∧
    IsToken "hi".toList ∧ (∀ t ∈ ["more".toList], IsToken t) ∧
    (∀ t ∈ ["=".toList, ">>+>".toList, "hi".toList], IsToken t) ∧
    executeLine (unwords ["58".toList, "=".toList, ">>+>".toList]) "58 58\n".toList
        (initial unitFloats []) =
      some (.next "58 58\n".toList { initial unitFloats [] with
        vars := mapSet (initial unitFloats []).vars "58".toList
          ⟨parseDataType ">>+>".toList, .str []⟩ }) :=
  ⟨by decide, by decide, by decide, by decide, by decide, by decide,
    (classifier_precedence (initial unitFloats []) "58".toList ">>+>".toList "hi".toList
      ["more".toList] ["=".toList, ">>+>".toList, "hi".toList] "58 58\n".toList
      (by decide) (by decide) (by decide) (by decide) (by decide) (by decide)).1⟩

/-- C18: short definition headers capture nothing.  A line whose first token
is `init` and which has fewer than five tokens registers no function, writes
nothing, leaves the variable store alone and takes no line from the program:
the run of the header followed by the text `R` is the run of `R` from the very
same state, so the lines after the header are executed as ordinary
statements. -/
theorem short_header_captures_nothing {L : FloatLib} (st : State L) (tail : List Str)
    (R : Str) (htail : ∀ t ∈ tail, IsToken t) (hshort : ("init".toList :: tail).length < 5) :
    execute (unwords ("init".toList :: tail) ++ newline :: R) st = execute R st := by
  rw [show "init".toList = kwInit from rfl] at hshort ⊢
  have htoks : ∀ t ∈ kwInit :: tail, IsToken t := by
    intro t ht
    rcases List.mem_cons.1 ht with h | h
    · rw [h]; decide
    · exact htail t h
  rw [execute_line _ _ _ (isLine_unwords _ htoks),
    executeLine_unwords kwInit _ R st htoks, if_pos rfl]
  unfold parseFunctionDefinition
  rw [if_pos hshort]

theorem short_header_captures_nothing_witness :
    (∀ t ∈ ["f".toList, "a".toList], IsToken t) ∧
    ("init".toList :: ["f".toList, "a".toList]).length < 5 ∧
    execute (unwords ("init".toList :: ["f".toList, "a".toList]) ++ newline ::
        "58 body\nend\n".toList) (initial unitFloats []) =
      execute "58 body\nend\n".toList (initial unitFloats []) :=
  ⟨by decide, by decide,
    short_header_captures_nothing (initial unitFloats []) ["f".toList, "a".toList]
      "58 body\nend\n".toList (by decide) (by decide)⟩

/-! ## Char literals -/

theorem tokenize_tokens {line : Str} {ts : List Str} (h : tokenize line = some ts) :
    ∀ t ∈ ts, IsToken t := by
  obtain ⟨h1, h2, _⟩ := tokenize_wordsOf_aux line.length line (le_refl _)
  rw [h1] at h
  cases h
  exact h2

/-- C19: Char coercion is in bounds inside `execute`.  The literal that the
assignment branch hands to `assignValue` is the fourth token of a tokenized
line, and a token is never empty, so `valueStr[0]` is a character of the
literal; consequently, for every name token `n` but `init` and every literal
token with first character `ch`, the lines `n = _+_ <literal>` and `58 n` run
to completion without failure, bind `n` to the Char `ch` and append to the
output exactly the one line made of `ch`. -/
theorem char_coercion_in_bounds {L : FloatLib} (st : State L) (line : Str) (ts : List Str)
    (n : Str) (ch : Char) (tl : Str)
    (htk : tokenize line = some ts) (h3 : 3 < ts.length)
    (hn : IsToken n) (hinit : n ≠ "init".toList) (ht : IsToken (ch :: tl)) :
    ts.getD 3 [] ≠ [] ∧
    execute (unlines [unwords [n, "=".toList, "_+_".toList, ch :: tl],
        unwords ["58".toList, n]]) st =
      some (.done { st with vars := mapSet st.vars n ⟨.CHAR, .chr ch⟩,
                            cout := st.cout ++ [ch] ++ [newline] }) := by
  constructor
  · have hmem : ts.getD 3 [] ∈ ts := by
      rw [List.getD_eq_getElem _ _ h3]
      exact List.getElem_mem _
    exact (tokenize_tokens htk _ hmem).1
  · have hval : assignValue (⟨parseDataType mkChar, .str []⟩ : Variable L) (ch :: tl)
        = .ok ⟨.CHAR, .chr ch⟩ := rfl
    exact execute_assign_print n mkChar (ch :: tl) st ⟨.CHAR, .chr ch⟩ hn hinit (by decide) ht
      hval

theorem char_coercion_in_bounds_witness :
    tokenize "c = _+_ Zed".toList =
      some ["c".toList, "=".toList, "_+_".toList, "Zed".toList] ∧
    3 < ["c".toList, "=".toList, "_+_".toList, "Zed".toList].length ∧
    IsToken "c".toList ∧ "c".toList ≠ "init".toList ∧ IsToken ('Z' :: "ed".toList) ∧
    (["c".toList, "=".toList, "_+_".toList, "Zed".toList].getD 3 [] ≠ [] ∧
    execute (unlines [unwords ["c".toList, "=".toList, "_+_".toList, 'Z' :: "ed".toList],
        unwords ["58".toList, "c".toList]]) (initial unitFloats []) =
      some (.done { initial unitFloats [] with
        vars := mapSet (initial unitFloats []).vars "c".toList ⟨.CHAR, .chr 'Z'⟩,
        cout := (initial unitFloats []).cout ++ ['Z'] ++ [newline] })) :=
  ⟨by decide, by decide, by decide, by decide, by decide,
    char_coercion_in_bounds (initial unitFloats []) "c = _+_ Zed".toList
      ["c".toList, "=".toList, "_+_".toList, "Zed".toList] "c".toList 'Z' "ed".toList
      (by decide) (by decide) (by decide) (by decide) (by decide)⟩

/-! ## A fatal coercion -/

theorem execute_of_reaches {L : FloatLib} {s s2 : Str} {st st2 : State L}
    (h : Reaches s st s2 st2) : execute s st = execute s2 st2 := by
  induction h with
  | here s st => rfl
  | step hg hl _ ih =>
    rw [execute_unfold, hg]
    simp only [hl]
    exact ih

/-- C20: a fatal coercion is atomic.  When a run of `execute` has come,
without failure, to the line `x = <<- t` in the state `st1`, and `stoi` fails
on `t` with the exception `e`, the whole run ends with `e` in exactly `st1`:
the variable store (with any earlier binding of `x`) and the function registry
are as they were just before the line, the output written by the earlier lines
is kept, and nothing of the text `rest` after the line is executed. -/
theorem fatal_coercion_atomic {L : FloatLib} (code : Str) (st0 st1 : State L)
    (x t rest : Str) (e : Exn)
    (hreach : Reaches code st0
      (unwords [x, "=".toList, "<<-".toList, t] ++ newline :: rest) st1)
    (hx : IsToken x) (hinit : x ≠ "init".toList) (ht : IsToken t)
    (hfail : stoi t = .error e) :
    execute code st0 = some (.fatal e st1) := by
  have hl : IsLine (unwords [x, kwAssign, mkInteger, t]) := isLine_unwords _
    (by simp only [List.mem_cons, List.mem_singleton, List.not_mem_nil, or_false]
        rintro y (h | h | h | h) <;> rw [h] <;> first | assumption | decide)
  have hp : parseDataType mkInteger = .INTEGER := by decide
  rw [execute_of_reaches hreach]
  rw [show "=".toList = kwAssign from rfl, show "<<-".toList = mkInteger from rfl,
    execute_line _ _ _ hl, executeLine_assign x mkInteger t _ st1 hx hinit (by decide) ht, hp]
  simp only [assignValue, hfail]

/-- After the line `58 hi` has been run from a fresh interpreter, the run stands
before whatever follows, with `hi` written. -/
theorem reaches_after_print (rest : Str) :
    Reaches (unwords ["58".toList, "hi".toList] ++ newline :: rest) (initial unitFloats [])
      rest { initial unitFloats [] with cout := "hi".toList ++ [newline] } := by
  have hg := getline_line (unwords ["58".toList, "hi".toList]) rest (by decide)
  have hl : executeLine (unwords ["58".toList, "hi".toList]) rest (initial unitFloats []) =
      some (.next rest { initial unitFloats [] with cout := "hi".toList ++ [newline] }) := by
    have h := executeLine_builtin opPrint "hi".toList rest (initial unitFloats [])
      isToken_opPrint (by decide) (by decide)
    rw [parseBuiltin_opPrint, if_pos (by decide)] at h
    exact h
  exact Reaches.step hg hl (Reaches.here _ _)

theorem fatal_coercion_atomic_witness :
    Reaches (unwords ["58".toList, "hi".toList] ++ newline ::
        (unwords ["x".toList, "=".toList, "<<-".toList, "abc".toList] ++ newline ::
          "58 later\n".toList)) (initial unitFloats [])
      (unwords ["x".toList, "=".toList, "<<-".toList, "abc".toList] ++ newline ::
        "58 later\n".toList)
      { initial unitFloats [] with cout := "hi".toList ++ [newline] } ∧
    IsToken "x".toList ∧ "x".toList ≠ "init".toList ∧ IsToken "abc".toList ∧
    stoi "abc".toList = .error .invalid_argument ∧
    execute (unwords ["58".toList, "hi".toList] ++ newline ::
        (unwords ["x".toList, "=".toList, "<<-".toList, "abc".toList] ++ newline ::
          "58 later\n".toList)) (initial unitFloats []) =
      some (.fatal .invalid_argument
        { initial unitFloats [] with cout := "hi".toList ++ [newline] }) :=
  ⟨reaches_after_print _, by decide, by decide, by decide, rfl,
    fatal_coercion_atomic _ (initial unitFloats []) _ "x".toList "abc".toList
      "58 later\n".toList .invalid_argument (reaches_after_print _)
      (by decide) (by decide) (by decide) rfl⟩

end Wuvi
